import Mathlib

/-!
Verification of the release-comment-action core against its specification.

The development shallowly embeds the TypeScript source of `src/index.ts`
(the zod-based variant) and `src/lib.ts`: semantic-version parsing as used
via the `semver` library, the boundary resolver in `main`, the body-scan
issue extraction `getIssuesClosedViaBody`, the per-commit pipeline
`findMergedPRs`, and the notification phase, with the git/GitHub
collaborators modelled as function parameters and command traces.
-/

/-- A git tag as constructed in `main`: the raw tag name and the cleaned
version string (package prefix stripped). -/
structure Tag where
  clean : String
  raw : String
deriving DecidableEq, Repr

/-- A semver pre-release identifier as returned by `semver.prerelease`:
numeric identifiers become numbers, the rest stay strings. -/
inductive PreId where
  | num (n : Nat)
  | str (s : String)
deriving DecidableEq, Repr

/-- Parsed semantic version (the fields of the `semver` library's `SemVer`
that the action reads). -/
structure SemVerT where
  major : Nat
  minor : Nat
  patch : Nat
  prerelease : List PreId
  build : List String
deriving DecidableEq, Repr

/-- ASCII lower-casing, the model of JavaScript `String.prototype.toLowerCase`
for the ASCII strings this action compares. -/
def jsCharLower (c : Char) : Char :=
  match c with
  | 'A' => 'a' | 'B' => 'b' | 'C' => 'c' | 'D' => 'd' | 'E' => 'e' | 'F' => 'f'
  | 'G' => 'g' | 'H' => 'h' | 'I' => 'i' | 'J' => 'j' | 'K' => 'k' | 'L' => 'l'
  | 'M' => 'm' | 'N' => 'n' | 'O' => 'o' | 'P' => 'p' | 'Q' => 'q' | 'R' => 'r'
  | 'S' => 's' | 'T' => 't' | 'U' => 'u' | 'V' => 'v' | 'W' => 'w' | 'X' => 'x'
  | 'Y' => 'y' | 'Z' => 'z' | c => c

/-- Lower-casing a whole string (model of `toLowerCase`). -/
def jsStrLower (s : String) : String := ⟨s.data.map jsCharLower⟩

/-- The JavaScript regular-expression whitespace class `\s`. -/
def isJsWs (c : Char) : Bool :=
  c == ' ' || c == '\t' || c == '\n' || c == '\r' || c == '\x0b' || c == '\x0c' ||
  c == '\u00A0' || c == '\u1680' ||
  (decide ('\u2000' ≤ c) && decide (c ≤ '\u200A')) ||
  c == '\u2028' || c == '\u2029' || c == '\u202F' ||
  c == '\u205F' || c == '\u3000' || c == '\uFEFF'

/-- Digit characters for decimal printing. -/
def decDigit (n : Nat) : Char :=
  match n with
  | 0 => '0' | 1 => '1' | 2 => '2' | 3 => '3' | 4 => '4'
  | 5 => '5' | 6 => '6' | 7 => '7' | 8 => '8' | 9 => '9'
  | _ => '*'

/-- Fuelled decimal digit expansion of a natural number. -/
def natDecAux : Nat → Nat → List Char
  | 0, _ => []
  | fuel + 1, n => if n < 10 then [decDigit n] else natDecAux fuel (n / 10) ++ [decDigit (n % 10)]

/-- Decimal notation of a natural number; the model of JavaScript number
to string conversion for the non-negative integers this action prints. -/
def natToDec (n : Nat) : String := ⟨natDecAux (n + 1) n⟩

/-- Decimal notation of an integer (JavaScript number to string conversion,
covering the `pre.0 - 1 = -1` corner). -/
def intToDec : Int → String
  | Int.ofNat n => natToDec n
  | Int.negSucc n => "-" ++ natToDec (n + 1)

/-- Numeric value of a list of decimal digits. -/
def digitsToNat (ds : List Char) : Nat :=
  ds.foldl (fun a c => a * 10 + (c.toNat - 48)) 0

/-- Trim of leading and trailing whitespace on a character list (model of
JavaScript `String.prototype.trim`, applied by `semver.parse`). -/
def jsTrim (cs : List Char) : List Char :=
  ((cs.dropWhile isJsWs).reverse.dropWhile isJsWs).reverse

/-- Character charset of semver pre-release and build identifiers. -/
def isIdChar (c : Char) : Bool := c.isDigit || c.isAlpha || c == '-'

/-- Parse a semver numeric field (`0|[1-9]\d*`) at the head of the input,
returning the value and the rest.  Greedy, as in the semver regular
expression: `"01"` parses as `0` leaving `"1"`, making the caller fail. -/
def parseNumericField : List Char → Option (Nat × List Char)
  | [] => none
  | c :: rest =>
    if c = '0' then some (0, rest)
    else if c.isDigit then
      some (digitsToNat (c :: rest.takeWhile Char.isDigit), rest.dropWhile Char.isDigit)
    else none

/-- Split a character list on the dot separator. -/
def splitDots : List Char → List (List Char)
  | [] => [[]]
  | '.' :: rest => [] :: splitDots rest
  | c :: rest =>
    match splitDots rest with
    | [] => [[c]]
    | h :: t => (c :: h) :: t

/-- Parse one pre-release identifier segment: nonempty, alphanumeric or
hyphen characters; all-digit segments have no leading zero and become
numeric identifiers, the rest stay strings (the semver
`PRERELEASEIDENTIFIER` grammar). -/
def leadingZero : List Char → Bool
  | '0' :: _ :: _ => true
  | _ => false

def parsePreSeg (seg : List Char) : Option PreId :=
  if seg.isEmpty then none
  else if seg.all isIdChar then
    if seg.all Char.isDigit then
      if leadingZero seg then none else some (PreId.num (digitsToNat seg))
    else some (PreId.str ⟨seg⟩)
  else none

/-- Parse a dot-separated list of pre-release identifier segments. -/
def parsePreSegs : List (List Char) → Option (List PreId)
  | [] => some []
  | seg :: rest =>
    match parsePreSeg seg, parsePreSegs rest with
    | some i, some is => some (i :: is)
    | _, _ => none

/-- Parse one build identifier segment (`[0-9A-Za-z-]+`). -/
def parseBuildSeg (seg : List Char) : Option String :=
  match seg with
  | [] => none
  | c :: rest => if (c :: rest).all isIdChar then some ⟨c :: rest⟩ else none

/-- Parse a dot-separated list of build identifier segments. -/
def parseBuildSegs : List (List Char) → Option (List String)
  | [] => some []
  | seg :: rest =>
    match parseBuildSeg seg, parseBuildSegs rest with
    | some i, some is => some (i :: is)
    | _, _ => none

/-- Parse the pre-release and build tail of a version (everything after the
patch number). -/
def parseTail (cs : List Char) (major minor patch : Nat) : Option SemVerT :=
  match cs with
  | [] => some ⟨major, minor, patch, [], []⟩
  | '-' :: rest =>
    let pre := rest.takeWhile (fun c => c ≠ '+')
    let bld := rest.dropWhile (fun c => c ≠ '+')
    match parsePreSegs (splitDots pre) with
    | none => none
    | some ids =>
      match bld with
      | [] => some ⟨major, minor, patch, ids, []⟩
      | '+' :: b =>
        match parseBuildSegs (splitDots b) with
        | none => none
        | some bs => some ⟨major, minor, patch, ids, bs⟩
      | _ => none
  | '+' :: b =>
    match parseBuildSegs (splitDots b) with
    | none => none
    | some bs => some ⟨major, minor, patch, [], bs⟩
  | _ => none

/-- Strip the optional leading `v` of a version string. -/
def stripV : List Char → List Char
  | 'v' :: t => t
  | t => t

/-- Parse the `major.minor.patch` core and tail of a version. -/
def parseMain (cs : List Char) : Option SemVerT :=
  match parseNumericField cs with
  | none => none
  | some (major, r1) =>
    match r1 with
    | '.' :: r2 =>
      match parseNumericField r2 with
      | none => none
      | some (minor, r3) =>
        match r3 with
        | '.' :: r4 =>
          match parseNumericField r4 with
          | none => none
          | some (patch, r5) => parseTail r5 major minor patch
        | _ => none
    | _ => none

/-- Parse a character list as a (strict-mode) semantic version: optional
`v`, three dot-separated numeric fields, optional pre-release and build
parts — the `FULL` regular expression of the `semver` package. -/
def parseSemVerCl (cs0 : List Char) : Option SemVerT := parseMain (stripV cs0)

/-- Model of `semver.parse` (strict): trim, then match the full grammar. -/
def parseSemVer (v : String) : Option SemVerT := parseSemVerCl (jsTrim v.data)

/-- Model of `semver.prerelease`: the identifier list of a parseable version
when nonempty, otherwise `null` (also `null` for unparseable strings). -/
def semverPrerelease (v : String) : Option (List PreId) :=
  match parseSemVer v with
  | none => none
  | some sv => if sv.prerelease.isEmpty then none else some sv.prerelease

/-- The release delta produced by the boundary resolution in `main`. -/
structure Delta where
  latest : Tag
  previous : Tag
deriving DecidableEq, Repr

/-- `getStableTags`: the tags whose clean version has no pre-release
component (`semver.prerelease(tag.clean) === null`). -/
def getStableTags (tags : List Tag) : List Tag :=
  tags.filter (fun tag => semverPrerelease tag.clean == none)

/-- The `stableTags.find(t => semver.major(t.clean) === expectedMajor)`
traversal.  `semver.major` throws on an unparseable version, which
propagates out of `Array.prototype.find`; that is modelled as an error. -/
def findFirstWithMajor (expected : Int) : List Tag → Except String (Option Tag)
  | [] => Except.ok none
  | t :: ts =>
    match parseSemVer t.clean with
    | none => Except.error "Invalid Version"
    | some v =>
      if (v.major : Int) = expected then Except.ok (some t)
      else findFirstWithMajor expected ts

/-- `findPreviousStableRelease` from `src/index.ts`: filter to stable tags,
compute the expected major (one less at an `x.0.0` boundary), and return
the first stable tag with that major, failing when none exists. -/
def findPreviousStableRelease (tag : Tag) (gitTags : List Tag) : Except String Tag :=
  let stableTags := getStableTags gitTags
  match parseSemVer tag.clean with
  | none => Except.error "Invalid Version"
  | some v =>
    let expectedMajor : Int := if v.minor = 0 ∧ v.patch = 0 then (v.major : Int) - 1 else (v.major : Int)
    match findFirstWithMajor expectedMajor stableTags with
    | Except.error e => Except.error e
    | Except.ok (some p) => Except.ok p
    | Except.ok none =>
      Except.error ("No previous stable release found for prior major version " ++ intToDec expectedMajor)

/-- Stringify one pre-release identifier as `Array.prototype.flatten` does. -/
def idToString : PreId → String
  | PreId.num n => natToDec n
  | PreId.str s => s

/-- `preRelease.flatten(".")`. -/
def idsJoin : List PreId → String
  | [] => ""
  | [i] => idToString i
  | i :: is => idToString i ++ "." ++ idsJoin is

/-- Replace the first occurrence of `pat` in a character list (JavaScript
`String.prototype.replace` with a string pattern); the list is unchanged
when `pat` does not occur. -/
def replaceFirstCl (cs pat rep : List Char) : List Char :=
  if pat.isPrefixOf cs then rep ++ cs.drop pat.length
  else
    match cs with
    | [] => []
    | c :: t => c :: replaceFirstCl t pat rep

/-- `latest.raw.replace(pattern, replacement)` on strings. -/
def replaceFirst (s pat rep : String) : String := ⟨replaceFirstCl s.data pat.data rep.data⟩

/-- `latest.clean.startsWith("v0.0.0-nightly-")`. -/
def isNightlyClean (clean : String) : Bool :=
  "v0.0.0-nightly-".data.isPrefixOf clean.data

/-- The boundary resolution of `main` in `src/index.ts` (zod variant):
from the creation-date-sorted tag list, classify the first tag and select
the `previous` tag of the release delta.  The nightly branch leaves
`previous` as the second list entry; a missing second entry surfaces later
as a TypeError on `previous.raw`, modelled as an error here. -/
def resolveDelta (gitTags : List Tag) : Except String Delta :=
  match gitTags with
  | [] => Except.error "TypeError: Cannot read properties of undefined"
  | latest :: rest =>
    let isStable : Bool := semverPrerelease latest.clean == none
    let isNightly : Bool := isNightlyClean latest.clean
    if ¬ isStable ∧ ¬ isNightly then
      -- pre-release branch
      match semverPrerelease latest.clean with
      | none => Except.error "Unable to parse prerelease"
      | some ids =>
        match ids with
        | i0 :: PreId.num m :: irest =>
          if idsJoin (i0 :: PreId.num m :: irest) = "pre.0" then
            match findPreviousStableRelease latest gitTags with
            | Except.error e => Except.error e
            | Except.ok p => Except.ok ⟨latest, p⟩
          else
            let priorRaw := replaceFirst latest.raw (idsJoin (i0 :: PreId.num m :: irest))
              (idToString i0 ++ "." ++ intToDec ((m : Int) - 1))
            match gitTags.find? (fun t => t.raw == priorRaw) with
            | some p => Except.ok ⟨latest, p⟩
            | none => Except.error ("Unable to find prior prerelease tag " ++ priorRaw)
        | _ => Except.error "Unable to parse prerelease"
    else if isStable then
      match findPreviousStableRelease latest gitTags with
      | Except.error e => Except.error e
      | Except.ok p => Except.ok ⟨latest, p⟩
    else
      match rest.head? with
      | some p => Except.ok ⟨latest, p⟩
      | none => Except.error "TypeError: Cannot read properties of undefined"

instance {α β : Type} [DecidableEq α] [DecidableEq β] : DecidableEq (Except α β) :=
  fun a b =>
    match a, b with
    | Except.ok x, Except.ok y =>
      if h : x = y then isTrue (by rw [h]) else isFalse (by intro hh; cases hh; exact h rfl)
    | Except.error x, Except.error y =>
      if h : x = y then isTrue (by rw [h]) else isFalse (by intro hh; cases hh; exact h rfl)
    | Except.ok _, Except.error _ => isFalse (by intro hh; cases hh)
    | Except.error _, Except.ok _ => isFalse (by intro hh; cases hh)

theorem string_eq_of_data {s t : String} (h : s.data = t.data) : s = t := by
  cases s; cases t; exact congrArg String.mk h

theorem dropWhile_head_false {α : Type} {p : α → Bool} :
    ∀ {l : List α} {x : α} {xs : List α}, l.dropWhile p = x :: xs → p x = false := by
  intro l
  induction l with
  | nil => intro x xs h; simp at h
  | cons a t ih =>
    intro x xs h
    by_cases ha : p a
    · simp [List.dropWhile, ha] at h
      exact ih h
    · simp [List.dropWhile, ha] at h
      rw [← h.1]
      simpa using ha

theorem semverPrerelease_parse {v : String} {ids : List PreId}
    (h : semverPrerelease v = some ids) :
    ∃ sv, parseSemVer v = some sv ∧ sv.prerelease = ids ∧ ids ≠ [] := by
  unfold semverPrerelease at h
  cases hp : parseSemVer v with
  | none => rw [hp] at h; exact absurd h (by simp)
  | some sv =>
    rw [hp] at h
    by_cases he : sv.prerelease.isEmpty
    · simp [he] at h
    · refine ⟨sv, rfl, by simpa [he] using h, ?_⟩
      intro hnil
      have hids : sv.prerelease = ids := by simpa [he] using h
      rw [hids, hnil] at he
      exact he rfl

theorem parsePreSeg_str {seg : List Char} {s : String}
    (h : parsePreSeg seg = some (PreId.str s)) :
    s.data = seg ∧ ∀ c ∈ seg, isIdChar c = true := by
  unfold parsePreSeg at h
  split at h
  · cases h
  · split at h
    · split at h
      · split at h
        · cases h
        · cases h
      · cases h
        rename_i hall _
        exact ⟨rfl, fun c hc => List.all_eq_true.mp hall c hc⟩
    · cases h

theorem parsePreSegs_mem {segs : List (List Char)} {ids : List PreId} {i : PreId}
    (h : parsePreSegs segs = some ids) (hi : i ∈ ids) :
    ∃ seg ∈ segs, parsePreSeg seg = some i := by
  induction segs generalizing ids with
  | nil => unfold parsePreSegs at h; cases h; cases hi
  | cons seg rest ih =>
    unfold parsePreSegs at h
    cases h1 : parsePreSeg seg with
    | none => rw [h1] at h; cases h
    | some j =>
      rw [h1] at h
      cases h2 : parsePreSegs rest with
      | none => rw [h2] at h; cases h
      | some js =>
        rw [h2] at h
        cases h
        rcases List.mem_cons.mp hi with rfl | hi'
        · exact ⟨seg, List.mem_cons_self _ _, h1⟩
        · obtain ⟨sg, hsg, hp⟩ := ih h2 hi'
          exact ⟨sg, List.mem_cons_of_mem _ hsg, hp⟩

theorem parseTail_pre {cs : List Char} {a b c : Nat} {sv : SemVerT}
    (h : parseTail cs a b c = some sv) :
    ∀ i ∈ sv.prerelease, ∃ seg, parsePreSeg seg = some i := by
  unfold parseTail at h
  split at h
  · cases h; simp
  · rename_i rest
    intro i hi
    simp only at h
    cases h1 : parsePreSegs (splitDots (rest.takeWhile (fun c => c ≠ '+'))) with
    | none => simp only [h1] at h; cases h
    | some ids =>
      simp only [h1] at h
      have hids : sv.prerelease = ids := by
        cases h2 : rest.dropWhile (fun c => c ≠ '+') with
        | nil => simp only [h2] at h; cases h; rfl
        | cons x xs =>
          simp only [h2] at h
          have hx : x = '+' := by
            have := dropWhile_head_false h2
            simpa using this
          subst hx
          simp only at h
          cases h3 : parseBuildSegs (splitDots xs) with
          | none => simp only [h3] at h; cases h
          | some bs => simp only [h3] at h; cases h; rfl
      rw [hids] at hi
      obtain ⟨seg, hseg, hp⟩ := parsePreSegs_mem h1 hi
      exact ⟨seg, hp⟩
  · rename_i bpart
    intro i hi
    cases h3 : parseBuildSegs (splitDots bpart) with
    | none => simp only [h3] at h; cases h
    | some bs => simp only [h3] at h; cases h; simp at hi
  · cases h

theorem parseMain_pre {cs : List Char} {sv : SemVerT}
    (h : parseMain cs = some sv) :
    ∀ i ∈ sv.prerelease, ∃ seg, parsePreSeg seg = some i := by
  unfold parseMain at h
  split at h
  · cases h
  · split at h
    · split at h
      · cases h
      · split at h
        · split at h
          · cases h
          · exact parseTail_pre h
        · cases h
    · cases h

theorem parseSemVerCl_pre {cs : List Char} {sv : SemVerT}
    (h : parseSemVerCl cs = some sv) :
    ∀ i ∈ sv.prerelease, ∃ seg, parsePreSeg seg = some i :=
  parseMain_pre h

theorem semverPrerelease_charsOk {v : String} {ids : List PreId}
    (h : semverPrerelease v = some ids) :
    ∀ s, PreId.str s ∈ ids → ∀ c ∈ s.data, isIdChar c = true := by
  intro s hs c hc
  obtain ⟨sv, hp, hpre, -⟩ := semverPrerelease_parse h
  have hmem : PreId.str s ∈ sv.prerelease := by rw [hpre]; exact hs
  obtain ⟨seg, hseg⟩ := parseSemVerCl_pre hp _ hmem
  obtain ⟨hdata, hchars⟩ := parsePreSeg_str hseg
  exact hchars c (by rw [← hdata]; exact hc)

theorem natDecAux_ne_nil {fuel n : Nat} (h : 0 < fuel) : natDecAux fuel n ≠ [] := by
  cases fuel with
  | zero => omega
  | succ f =>
    unfold natDecAux
    by_cases hn : n < 10 <;> simp [hn]

theorem decDigit_digit {n : Nat} (h : n < 10) : (decDigit n).isDigit = true := by
  interval_cases n <;> decide

theorem decDigit_zero {n : Nat} (h : n < 10) (h0 : decDigit n = '0') : n = 0 := by
  interval_cases n <;> simp_all <;> cases h0

theorem natDecAux_digits : ∀ fuel n c, c ∈ natDecAux fuel n → c.isDigit = true := by
  intro fuel
  induction fuel with
  | zero => intro n c hc; simp [natDecAux] at hc
  | succ f ih =>
    intro n c hc
    unfold natDecAux at hc
    by_cases hn : n < 10
    · simp [hn] at hc
      rw [hc]; exact decDigit_digit hn
    · simp [hn] at hc
      rcases hc with hc | hc
      · exact ih _ _ hc
      · rw [hc]; exact decDigit_digit (Nat.mod_lt _ (by omega))

theorem natToDec_ne_zero {m : Nat} (hm : 0 < m) : natToDec m ≠ "0" := by
  intro h
  have hd : natDecAux (m + 1) m = ['0'] := by
    have := congrArg String.data h
    simpa [natToDec] using this
  by_cases h10 : m < 10
  · rw [natDecAux] at hd
    simp [h10] at hd
    exact absurd (decDigit_zero h10 hd) (by omega)
  · rw [natDecAux] at hd
    simp [h10] at hd
    have hne : natDecAux m (m / 10) ≠ [] := natDecAux_ne_nil (by omega)
    cases hx : natDecAux m (m / 10) with
    | nil => exact hne hx
    | cons a l =>
      rw [hx] at hd
      have hlen := congrArg List.length hd
      simp at hlen

theorem natToDec_dotFree (n : Nat) : '.' ∉ (natToDec n).data := by
  intro hmem
  have := natDecAux_digits (n + 1) n '.' (by simpa [natToDec] using hmem)
  cases this

theorem dot_dissect (u w : List Char) (hu : '.' ∉ u)
    (h : u ++ '.' :: w = ['p', 'r', 'e', '.', '0']) : u = ['p', 'r', 'e'] ∧ w = ['0'] := by
  rcases u with _ | ⟨a, _ | ⟨b, _ | ⟨c, _ | ⟨d, u'⟩⟩⟩⟩ <;> simp at h
  · exact ⟨by simp [h.1, h.2.1, h.2.2.1], h.2.2.2⟩
  · exact absurd (by simp [h.2.2.2.1] : ('.' : Char) ∈ d :: u')
      (fun hmem => hu (List.mem_cons_of_mem _ (List.mem_cons_of_mem _ (List.mem_cons_of_mem _ hmem))))

theorem idsJoin_two_ne_pre0 {i0 : PreId} {m : Nat} (hm : 0 < m)
    (hdot : '.' ∉ (idToString i0).data) :
    idsJoin [i0, PreId.num m] ≠ "pre.0" := by
  intro h
  have hd : (idToString i0).data ++ '.' :: (natToDec m).data = ['p', 'r', 'e', '.', '0'] := by
    have := congrArg String.data h
    simpa [idsJoin, idToString, String.data_append] using this
  obtain ⟨-, hw⟩ := dot_dissect _ _ hdot hd
  exact natToDec_ne_zero hm (string_eq_of_data (by simpa using hw))

theorem idToString_dotFree {v : String} {ids : List PreId} {i0 : PreId}
    (h : semverPrerelease v = some ids) (hmem : i0 ∈ ids) :
    '.' ∉ (idToString i0).data := by
  cases i0 with
  | num n => exact natToDec_dotFree n
  | str s =>
    intro hc
    have := semverPrerelease_charsOk h s hmem '.' hc
    cases this

theorem resolveDelta_pre0 (latest : Tag) (rest : List Tag) (i0 : PreId) (m : Nat) (irest : List PreId)
    (hpre : semverPrerelease latest.clean = some (i0 :: PreId.num m :: irest))
    (hn : isNightlyClean latest.clean = false)
    (hjoin : idsJoin (i0 :: PreId.num m :: irest) = "pre.0") :
    resolveDelta (latest :: rest) =
      (match findPreviousStableRelease latest (latest :: rest) with
       | Except.error e => Except.error e
       | Except.ok p => Except.ok ⟨latest, p⟩) := by
  have h1 : (semverPrerelease latest.clean == none) = false := by rw [hpre]; rfl
  simp only [resolveDelta, h1, hn, hpre, hjoin]
  simp

theorem resolveDelta_dec (latest : Tag) (rest : List Tag) (i0 : PreId) (m : Nat) (irest : List PreId)
    (hpre : semverPrerelease latest.clean = some (i0 :: PreId.num m :: irest))
    (hn : isNightlyClean latest.clean = false)
    (hjoin : idsJoin (i0 :: PreId.num m :: irest) ≠ "pre.0") :
    resolveDelta (latest :: rest) =
      (let priorRaw := replaceFirst latest.raw (idsJoin (i0 :: PreId.num m :: irest))
          (idToString i0 ++ "." ++ intToDec ((m : Int) - 1))
       match (latest :: rest).find? (fun t => t.raw == priorRaw) with
       | some p => Except.ok ⟨latest, p⟩
       | none => Except.error ("Unable to find prior prerelease tag " ++ priorRaw)) := by
  have h1 : (semverPrerelease latest.clean == none) = false := by rw [hpre]; rfl
  simp only [resolveDelta, h1, hn, hpre]
  simp [hjoin]

theorem findFirstWithMajor_ok_some {e : Int} {l : List Tag} {p : Tag}
    (h : findFirstWithMajor e l = Except.ok (some p)) :
    ∃ l1 l2, l = l1 ++ p :: l2 ∧
      (∀ q ∈ l1, ∃ vq, parseSemVer q.clean = some vq ∧ (vq.major : Int) ≠ e) ∧
      ∃ vp, parseSemVer p.clean = some vp ∧ (vp.major : Int) = e := by
  induction l with
  | nil => simp [findFirstWithMajor] at h
  | cons t ts ih =>
    unfold findFirstWithMajor at h
    cases hp : parseSemVer t.clean with
    | none => rw [hp] at h; cases h
    | some v =>
      rw [hp] at h
      by_cases hm : (v.major : Int) = e
      · simp only [hm, if_pos rfl] at h
        cases h
        exact ⟨[], ts, rfl, by simp, v, hp, hm⟩
      · simp only [if_neg hm] at h
        obtain ⟨l1, l2, hl, hq, hv⟩ := ih h
        refine ⟨t :: l1, l2, by rw [hl]; rfl, ?_, hv⟩
        intro q hq'
        rcases List.mem_cons.mp hq' with rfl | hq''
        · exact ⟨v, hp, hm⟩
        · exact hq q hq''

theorem findPreviousStableRelease_ok {tag : Tag} {gitTags : List Tag} {p : Tag}
    (h : findPreviousStableRelease tag gitTags = Except.ok p) :
    ∃ vl, parseSemVer tag.clean = some vl ∧
    ∃ l1 l2, getStableTags gitTags = l1 ++ p :: l2 ∧
      (∀ q ∈ l1, ∃ vq, parseSemVer q.clean = some vq ∧
        (vq.major : Int) ≠ (if vl.minor = 0 ∧ vl.patch = 0 then (vl.major : Int) - 1 else (vl.major : Int))) ∧
      ∃ vp, parseSemVer p.clean = some vp ∧
        (vp.major : Int) = (if vl.minor = 0 ∧ vl.patch = 0 then (vl.major : Int) - 1 else (vl.major : Int)) := by
  unfold findPreviousStableRelease at h
  cases hp : parseSemVer tag.clean with
  | none => rw [hp] at h; cases h
  | some vl =>
    rw [hp] at h
    simp only at h
    cases hf : findFirstWithMajor
        (if vl.minor = 0 ∧ vl.patch = 0 then (vl.major : Int) - 1 else (vl.major : Int))
        (getStableTags gitTags) with
    | error e => rw [hf] at h; cases h
    | ok o =>
      cases o with
      | none => rw [hf] at h; cases h
      | some q =>
        rw [hf] at h
        cases h
        obtain ⟨l1, l2, hl, hq, hv⟩ := findFirstWithMajor_ok_some hf
        exact ⟨vl, rfl, l1, l2, hl, hq, hv⟩

/-- Claim C1 (code bug): evaluating the boundary resolver at the spec's own
end-to-end scenario `[remix@2.0.1, remix@2.0.0, remix@1.9.0]` (latest is
stable and not an `x.0.0` boundary) returns `previous = remix@2.0.1`, i.e.
`latest` itself, because the major-version search over the stable-filtered
list does not exclude `latest`; the claim (and the repository's own test
for this scenario) requires `previous = remix@2.0.0`. -/
theorem stable_boundary_failing_input_eval :
    resolveDelta [⟨"2.0.1", "remix@2.0.1"⟩, ⟨"2.0.0", "remix@2.0.0"⟩, ⟨"1.9.0", "remix@1.9.0"⟩] =
      Except.ok ⟨⟨"2.0.1", "remix@2.0.1"⟩, ⟨"2.0.1", "remix@2.0.1"⟩⟩ ∧
    resolveDelta [⟨"2.0.1", "remix@2.0.1"⟩, ⟨"2.0.0", "remix@2.0.0"⟩, ⟨"1.9.0", "remix@1.9.0"⟩] ≠
      Except.ok ⟨⟨"2.0.1", "remix@2.0.1"⟩, ⟨"2.0.0", "remix@2.0.0"⟩⟩ := by
  decide

/-- Claim C7 (counterexample): a first tag whose clean version begins with
`v0.0.0-nightly-` but is not parseable as a semver (here
`v0.0.0-nightly-_`) is classified stable, so the resolver does not return
the second tag as the claim states but fails with `Invalid Version`. -/
theorem nightly_unparseable_counterexample :
    isNightlyClean "v0.0.0-nightly-_" = true ∧
    resolveDelta [⟨"v0.0.0-nightly-_", "v0.0.0-nightly-_"⟩, ⟨"1.0.0", "remix@1.0.0"⟩] =
      Except.error "Invalid Version" ∧
    resolveDelta [⟨"v0.0.0-nightly-_", "v0.0.0-nightly-_"⟩, ⟨"1.0.0", "remix@1.0.0"⟩] ≠
      Except.ok ⟨⟨"v0.0.0-nightly-_", "v0.0.0-nightly-_"⟩, ⟨"1.0.0", "remix@1.0.0"⟩⟩ := by
  refine ⟨by decide, by decide, by decide⟩

/-- Claim C7 (amended): for every tag sequence of length at least 2 whose
first element has a clean version beginning with `v0.0.0-nightly-` and
carrying a semver pre-release component (so it is not classified stable),
the resolver returns as previous the tag immediately following it in the
sorted sequence, with no further lookup. -/
theorem nightly_previous_is_second (l t2 : Tag) (rest : List Tag)
    (hn : isNightlyClean l.clean = true)
    (hp : semverPrerelease l.clean ≠ none) :
    resolveDelta (l :: t2 :: rest) = Except.ok ⟨l, t2⟩ := by
  have h1 : (semverPrerelease l.clean == none) = false := by
    cases h : semverPrerelease l.clean with
    | none => exact absurd h hp
    | some _ => simp
  simp [resolveDelta, h1, hn]

/-- Witness for the amended C7 theorem at a concrete nightly sequence. -/
theorem nightly_previous_is_second_witness :
    resolveDelta [⟨"v0.0.0-nightly-abc-20230101", "v0.0.0-nightly-abc-20230101"⟩,
        ⟨"2.0.1", "remix@2.0.1"⟩] =
      Except.ok ⟨⟨"v0.0.0-nightly-abc-20230101", "v0.0.0-nightly-abc-20230101"⟩,
        ⟨"2.0.1", "remix@2.0.1"⟩⟩ :=
  nightly_previous_is_second _ _ _ (by decide) (by decide)

/-- Claim C6: when the first tag is a pre-release whose identifier sequence
is exactly `pre.0`, the resolver applies the same rule as for a stable
latest — it calls `findPreviousStableRelease`, and any returned previous
tag is a stable tag whose major version equals `major(latest)` (or
`major(latest) - 1` at an `x.0.0` boundary), the first such tag in the
stable-filtered sequence. -/
theorem pre0_uses_stable_rule
    (gitTags : List Tag) (latest : Tag) (rest : List Tag)
    (hts : gitTags = latest :: rest)
    (hpre : semverPrerelease latest.clean = some [PreId.str "pre", PreId.num 0])
    (hn : isNightlyClean latest.clean = false) :
    resolveDelta gitTags =
      (match findPreviousStableRelease latest gitTags with
       | Except.error e => Except.error e
       | Except.ok p => Except.ok ⟨latest, p⟩) ∧
    (∀ p, resolveDelta gitTags = Except.ok ⟨latest, p⟩ →
      p ∈ getStableTags gitTags ∧
      ∃ vl, parseSemVer latest.clean = some vl ∧
      ∃ l1 l2, getStableTags gitTags = l1 ++ p :: l2 ∧
        (∀ q ∈ l1, ∃ vq, parseSemVer q.clean = some vq ∧
          (vq.major : Int) ≠ (if vl.minor = 0 ∧ vl.patch = 0 then (vl.major : Int) - 1 else (vl.major : Int))) ∧
        ∃ vp, parseSemVer p.clean = some vp ∧
          (vp.major : Int) = (if vl.minor = 0 ∧ vl.patch = 0 then (vl.major : Int) - 1 else (vl.major : Int))) := by
  subst hts
  have heq := resolveDelta_pre0 latest rest (PreId.str "pre") 0 [] hpre hn (by decide)
  refine ⟨heq, ?_⟩
  intro p hp
  rw [heq] at hp
  cases hf : findPreviousStableRelease latest (latest :: rest) with
  | error e => rw [hf] at hp; cases hp
  | ok q =>
    rw [hf] at hp
    cases hp
    obtain ⟨vl, hvl, l1, l2, hl, hq, hv⟩ := findPreviousStableRelease_ok hf
    refine ⟨?_, vl, hvl, l1, l2, hl, hq, hv⟩
    rw [hl]
    exact List.mem_append_right _ (List.mem_cons_self _ _)

/-- Witness for the C6 theorem at a concrete `pre.0` sequence. -/
theorem pre0_uses_stable_rule_witness :
    resolveDelta [⟨"2.1.0-pre.0", "remix@2.1.0-pre.0"⟩, ⟨"2.0.1", "remix@2.0.1"⟩,
        ⟨"1.9.0", "remix@1.9.0"⟩] =
      (match findPreviousStableRelease ⟨"2.1.0-pre.0", "remix@2.1.0-pre.0"⟩
          [⟨"2.1.0-pre.0", "remix@2.1.0-pre.0"⟩, ⟨"2.0.1", "remix@2.0.1"⟩,
            ⟨"1.9.0", "remix@1.9.0"⟩] with
       | Except.error e => Except.error e
       | Except.ok p => Except.ok ⟨⟨"2.1.0-pre.0", "remix@2.1.0-pre.0"⟩, p⟩) :=
  (pre0_uses_stable_rule _ ⟨"2.1.0-pre.0", "remix@2.1.0-pre.0"⟩
    [⟨"2.0.1", "remix@2.0.1"⟩, ⟨"1.9.0", "remix@1.9.0"⟩] rfl (by decide) (by decide)).1

theorem intToDec_sub_one {m : Nat} (hm : 0 < m) :
    intToDec ((m : Int) - 1) = natToDec (m - 1) := by
  have h : (m : Int) - 1 = ((m - 1 : Nat) : Int) := by omega
  rw [h]
  rfl

/-- Claim C2: for a pre-release latest whose identifier sequence is a
two-component `id.N` with ordinal `N > 0`, the resolver builds the prior
raw name by the literal first-occurrence string replacement of the joined
identifier sequence with the ordinal decremented, looks it up by exact
raw-name match over the full tag sequence, and fails with the
`Unable to find prior prerelease tag` error exactly when no tag with that
raw name exists. -/
theorem prerelease_decrement_boundary
    (gitTags : List Tag) (latest : Tag) (rest : List Tag) (i0 : PreId) (m : Nat)
    (hts : gitTags = latest :: rest)
    (hpre : semverPrerelease latest.clean = some [i0, PreId.num m])
    (hm : 0 < m)
    (hn : isNightlyClean latest.clean = false) :
    ((∀ t ∈ gitTags, t.raw ≠ replaceFirst latest.raw (idsJoin [i0, PreId.num m])
        (idToString i0 ++ "." ++ natToDec (m - 1))) →
      resolveDelta gitTags = Except.error
        ("Unable to find prior prerelease tag " ++
          replaceFirst latest.raw (idsJoin [i0, PreId.num m])
            (idToString i0 ++ "." ++ natToDec (m - 1)))) ∧
    (∀ t, resolveDelta gitTags = Except.ok ⟨latest, t⟩ →
      t ∈ gitTags ∧ t.raw = replaceFirst latest.raw (idsJoin [i0, PreId.num m])
        (idToString i0 ++ "." ++ natToDec (m - 1))) ∧
    ((∃ t ∈ gitTags, t.raw = replaceFirst latest.raw (idsJoin [i0, PreId.num m])
        (idToString i0 ++ "." ++ natToDec (m - 1))) →
      ∃ t, resolveDelta gitTags = Except.ok ⟨latest, t⟩) := by
  subst hts
  have hdot : '.' ∉ (idToString i0).data :=
    idToString_dotFree hpre (List.mem_cons_self _ _)
  have hjoin : idsJoin [i0, PreId.num m] ≠ "pre.0" := idsJoin_two_ne_pre0 hm hdot
  have heq := resolveDelta_dec latest rest i0 m [] hpre hn hjoin
  rw [intToDec_sub_one hm] at heq
  simp only at heq
  set priorRaw := replaceFirst latest.raw (idsJoin [i0, PreId.num m])
    (idToString i0 ++ "." ++ natToDec (m - 1)) with hpr
  refine ⟨?_, ?_, ?_⟩
  · intro hnone
    have hfind : (latest :: rest).find? (fun t => t.raw == priorRaw) = none := by
      rw [List.find?_eq_none]
      intro x hx
      simp only [beq_iff_eq]
      exact hnone x hx
    rw [heq, hfind]
  · intro t ht
    rw [heq] at ht
    cases hfind : (latest :: rest).find? (fun t => t.raw == priorRaw) with
    | none => rw [hfind] at ht; cases ht
    | some q =>
      rw [hfind] at ht
      cases ht
      refine ⟨List.mem_of_find?_eq_some hfind, ?_⟩
      have := List.find?_some hfind
      simpa using this
  · intro ⟨t, htmem, htraw⟩
    cases hfind : (latest :: rest).find? (fun t => t.raw == priorRaw) with
    | none =>
      rw [List.find?_eq_none] at hfind
      exact absurd (by simpa using htraw) (hfind t htmem)
    | some q =>
      exact ⟨q, by rw [heq, hfind]⟩

/-- Witness for the C2 theorem: in the sequence
`[remix@2.1.0-pre.3, remix@2.1.0-pre.2]` the resolver's previous tag is
found by exact raw-name match of the decremented name. -/
theorem prerelease_decrement_boundary_witness :
    (⟨"2.1.0-pre.2", "remix@2.1.0-pre.2"⟩ : Tag) ∈
        [(⟨"2.1.0-pre.3", "remix@2.1.0-pre.3"⟩ : Tag), ⟨"2.1.0-pre.2", "remix@2.1.0-pre.2"⟩] ∧
    (⟨"2.1.0-pre.2", "remix@2.1.0-pre.2"⟩ : Tag).raw =
      replaceFirst "remix@2.1.0-pre.3" (idsJoin [PreId.str "pre", PreId.num 3])
        (idToString (PreId.str "pre") ++ "." ++ natToDec 2) :=
  (prerelease_decrement_boundary _ ⟨"2.1.0-pre.3", "remix@2.1.0-pre.3"⟩
      [⟨"2.1.0-pre.2", "remix@2.1.0-pre.2"⟩] (PreId.str "pre") 3 rfl (by decide) (by decide)
      (by decide)).2.1
    ⟨"2.1.0-pre.2", "remix@2.1.0-pre.2"⟩ (by decide)

/-- A JavaScript number as it appears in the issue pipeline: either a
natural issue number or `NaN` (produced by `parseInt(undefined)`). -/
inductive JsNum where
  | nan
  | num (n : Nat)
deriving DecidableEq, Repr

/-- The closing keywords of the body-scan regular expression
`/(close|closes|closed|fix|fixes|fixed|resolve|resolves|resolved)(:)?\s#([0-9]+)/gi`,
in alternation order. -/
def keywordData : List (List Char) :=
  ["close".data, "closes".data, "closed".data, "fix".data, "fixes".data,
   "fixed".data, "resolve".data, "resolves".data, "resolved".data]

/-- Case-insensitive match of a lowercase keyword against a prefix of the
input, returning the consumed original characters and the rest. -/
def caselessKw : List Char → List Char → Option (List Char × List Char)
  | [], cs => some ([], cs)
  | _ :: _, [] => none
  | k :: kt, c :: ct =>
    if jsCharLower c = k then
      match caselessKw kt ct with
      | some (m, r) => some (c :: m, r)
      | none => none
    else none

/-- Match `\s#[0-9]+` (one whitespace, a hash, a maximal nonempty digit
run) at the head of the input. -/
def matchWsHash : List Char → Option (List Char × List Char)
  | w :: '#' :: ds =>
    if isJsWs w then
      match ds.takeWhile Char.isDigit with
      | [] => none
      | digits => some (w :: '#' :: digits, ds.dropWhile Char.isDigit)
    else none
  | _ => none

/-- Match `(:)?\s#[0-9]+`: the greedy optional colon is tried first, then
the variant without it (which can only fail again, since `:` is not
whitespace). -/
def matchColonTail (cs : List Char) : Option (List Char × List Char) :=
  match cs with
  | ':' :: rest =>
    match matchWsHash rest with
    | some (m, r) => some (':' :: m, r)
    | none => matchWsHash cs
  | _ => matchWsHash cs

/-- One alternative of the regular expression at the current position: the
keyword (case-insensitively), then the `(:)?\s#[0-9]+` tail. -/
def matchAlt (cs kw : List Char) : Option (List Char × List Char) :=
  match caselessKw kw cs with
  | some (kwPart, r) =>
    match matchColonTail r with
    | some (m, rest) => some (kwPart ++ m, rest)
    | none => none
  | none => none

/-- Attempt the whole regular expression at the current position: ordered
alternation over the keywords, with the tail after the keyword. -/
def matchAt (cs : List Char) : Option (List Char × List Char) :=
  keywordData.findSome? (matchAlt cs)

/-- Global scan: collect all non-overlapping matches left to right, fuelled
by the input length (each match consumes at least one character). -/
def scanAux : Nat → List Char → List (List Char)
  | 0, _ => []
  | _ + 1, [] => []
  | fuel + 1, c :: cs =>
    match matchAt (c :: cs) with
    | some (m, rest) => m :: scanAux fuel rest
    | none => scanAux fuel cs

/-- `prBody.match(regex)` with the global flag: the list of matched
substrings. -/
def jsMatchList (body : String) : List (List Char) := scanAux body.data.length body.data

/-- JavaScript `split(" #")` on a character list. -/
def splitSpaceHash : List Char → List (List Char)
  | [] => [[]]
  | ' ' :: '#' :: rest => [] :: splitSpaceHash rest
  | c :: rest =>
    match splitSpaceHash rest with
    | [] => [[c]]
    | h :: t => (c :: h) :: t

/-- `parseInt(x, 10)` as applied to the second `split(" #")` component:
`undefined` (a missing component) gives `NaN`; call sites only ever pass
pure digit runs, modelled by the leading-digit rule. -/
def jsParseInt : Option (List Char) → JsNum
  | none => JsNum.nan
  | some ds =>
    match ds.takeWhile Char.isDigit with
    | [] => JsNum.nan
    | digits => JsNum.num (digitsToNat digits)

/-- The extraction the source applies to one regular-expression match:
`let [, issueNumber] = match.split(" #"); parseInt(issueNumber, 10)`. -/
def extractMatch (m : List Char) : JsNum := jsParseInt ((splitSpaceHash m).get? 1)

/-- `getIssuesClosedViaBody` from `src/index.ts`: empty body short-circuits
to `[]` before the regular expression; otherwise every global match is
mapped through the split-and-parse extraction. -/
def getIssuesClosedViaBody (prBody : String) : List JsNum :=
  if prBody = "" then []
  else
    match jsMatchList prBody with
    | [] => []
    | ms => ms.map extractMatch

/-- A validated result of the merged-pull-request search
(`gh pr list --search <commit> --state merged --json number,title,url,body`,
after the zod schema). -/
structure PrSearchResult where
  number : Nat
  title : String
  url : String
  body : String
deriving DecidableEq, Repr

/-- The record emitted per resolved pull request. -/
structure MergedPR where
  number : Nat
  issues : List JsNum
deriving DecidableEq, Repr

/-- Insertion-ordered deduplication, the model of
`[...new Set([...linkedIssues, ...issuesClosedViaBody])]` (`Set` iterates
in insertion order and keeps first occurrences; `SameValueZero` makes
`NaN` equal to itself, matching structural equality on `JsNum`). -/
def jsSetDedupAux (seen : List JsNum) : List JsNum → List JsNum
  | [] => []
  | x :: xs =>
    if seen.contains x then jsSetDedupAux seen xs
    else x :: jsSetDedupAux (x :: seen) xs

def jsSetDedup (l : List JsNum) : List JsNum := jsSetDedupAux [] l

/-- The internal release-bookkeeping titles skipped by `findMergedPRs`. -/
def CHANGESET_PR_TITLES : List String :=
  ["chore: update version for release", "chore: update version for release (pre)"]

/-- The per-commit step of `findMergedPRs`, with the forge modelled by two
functions: `search` for the merged-pull-request search keyed by commit id,
and `linked` for the closing-issues graph query keyed by pull-request url
(both schema-validated, per the collaborator contract). -/
def resolveCommit (search : String → List PrSearchResult) (linked : String → List Nat)
    (commit : String) : Option MergedPR :=
  match search commit with
  | [] => none
  | pr :: _ =>
    if CHANGESET_PR_TITLES.contains (jsStrLower pr.title) then none
    else
      some { number := pr.number,
             issues := jsSetDedup ((linked pr.url).map JsNum.num ++ getIssuesClosedViaBody pr.body) }

/-- `findMergedPRs`: map the per-commit step over the commits in order and
drop the skipped entries. -/
def findMergedPRs (search : String → List PrSearchResult) (linked : String → List Nat)
    (commits : List String) : List MergedPR :=
  (commits.map (resolveCommit search linked)).filterMap id

/-- One `gh` invocation of the notification phase.  `issueLabelsQuery` is
the read operation of the forge contract (`Forge.issueLabels`); the source
never emits it. -/
inductive GhCmd where
  | prComment (pr : Nat) (body : String)
  | prEdit (pr : Nat) (removeLabel : String)
  | issueComment (issue : JsNum) (body : String)
  | issueClose (issue : JsNum)
  | issueEdit (issue : JsNum) (removeLabel : String)
  | issueLabelsQuery (issue : JsNum)
deriving DecidableEq, Repr

/-- Whether a forge command mutates forge state. -/
def isMutating : GhCmd → Bool
  | GhCmd.issueLabelsQuery _ => false
  | _ => true

/-- The pull-request comment template of `main`. -/
def prCommentBody (latestClean : String) : String :=
  "🤖 Hello there,\n\nWe just published version `" ++ latestClean ++
    "` which includes this pull request. If you'd like to take it for a test run please try it out and let us know what you think!\n\nThanks!"

/-- The issue comment template of `main`. -/
def issueCommentBody (latestClean : String) : String :=
  "🤖 Hello there,\n\nWe just published version `" ++ latestClean ++
    "` which involves this issue. If you'd like to take it for a test run please try it out and let us know what you think!\n\nThanks!"

/-- The `gh` commands issued for one linked issue in live mode: comment,
close, and — when an issue label-removal string is configured and the
release is stable — a label edit. -/
def issueCmds (latestClean : String) (isStable : Bool) (issueLabels : String)
    (issue : JsNum) : List GhCmd :=
  [GhCmd.issueComment issue (issueCommentBody latestClean), GhCmd.issueClose issue] ++
    (if issueLabels ≠ "" ∧ isStable then [GhCmd.issueEdit issue issueLabels] else [])

/-- The `gh` commands issued for one resolved pull request in live mode. -/
def prCmds (latestClean : String) (isStable : Bool) (prLabels issueLabels : String)
    (pr : MergedPR) : List GhCmd :=
  [GhCmd.prComment pr.number (prCommentBody latestClean)] ++
    (if prLabels ≠ "" ∧ isStable then [GhCmd.prEdit pr.number prLabels] else []) ++
    (pr.issues.map (issueCmds latestClean isStable issueLabels)).flatten

/-- Outcome of the notification phase of `main`: the `gh` commands issued
and whether the dry-run branch terminated the run (`process.exit(0)`). -/
structure NotifyOutcome where
  commands : List GhCmd
  dryRunExit : Bool
deriving DecidableEq, Repr

/-- The notification phase of `main` after `findMergedPRs`: under
`DRY_RUN` it only logs the resolved urls and exits; otherwise it issues
the comment/close/label-edit commands per pull request. -/
def notifyPhase (dryRun : Bool) (latestClean : String) (isStable : Bool)
    (prLabels issueLabels : String) (prs : List MergedPR) : NotifyOutcome :=
  if dryRun then { commands := [], dryRunExit := true }
  else
    { commands := (prs.map (prCmds latestClean isStable prLabels issueLabels)).flatten,
      dryRunExit := false }

/-- Claim C10: the empty pull-request body short-circuits to the empty
issue list (the definition returns through the `if (!prBody)` branch,
before the regular-expression match). -/
theorem empty_body_no_issues : getIssuesClosedViaBody "" = [] := rfl

theorem resolveCommit_cons {search : String → List PrSearchResult} {linked : String → List Nat}
    {commit : String} {pr : PrSearchResult} {tl : List PrSearchResult}
    (hs : search commit = pr :: tl) :
    resolveCommit search linked commit =
      if CHANGESET_PR_TITLES.contains (jsStrLower pr.title) then none
      else some ⟨pr.number,
        jsSetDedup ((linked pr.url).map JsNum.num ++ getIssuesClosedViaBody pr.body)⟩ := by
  unfold resolveCommit
  rw [hs]

def exSearch : String → List PrSearchResult := fun c =>
  if c = "c1" then [⟨10, "Add feature", "https://github.com/remix-run/remix/pull/10", "Closes #5"⟩]
  else []

def exLinked : String → List Nat := fun _ => []

/-- Claim C3: the per-commit step of `findMergedPRs` emits a record exactly
when the forge search returns at least one merged pull request whose first
result's lower-cased title is not a changeset title; a changeset title is
discarded whatever the linked issues, a commit with no pull request emits
nothing, the emitted number is the first result's number, and the concrete
scenario `[c1 ↦ PR 10 with body "Closes #5", c2 ↦ no PR]` yields exactly
one record `{number := 10, issues := [5]}`. -/
theorem per_commit_emission_rule :
    (∀ (search : String → List PrSearchResult) (linked : String → List Nat) (commit : String),
      (∃ r, resolveCommit search linked commit = some r) ↔
      (∃ pr tl, search commit = pr :: tl ∧
        CHANGESET_PR_TITLES.contains (jsStrLower pr.title) = false)) ∧
    (∀ (search : String → List PrSearchResult) (linked : String → List Nat)
        (commit : String) (pr : PrSearchResult) (tl : List PrSearchResult),
      search commit = pr :: tl →
      CHANGESET_PR_TITLES.contains (jsStrLower pr.title) = true →
      resolveCommit search linked commit = none) ∧
    (∀ (search : String → List PrSearchResult) (linked : String → List Nat) (commit : String),
      search commit = [] → resolveCommit search linked commit = none) ∧
    (∀ (search : String → List PrSearchResult) (linked : String → List Nat)
        (commit : String) (pr : PrSearchResult) (tl : List PrSearchResult) (r : MergedPR),
      search commit = pr :: tl → resolveCommit search linked commit = some r →
      r.number = pr.number) ∧
    findMergedPRs exSearch exLinked ["c1", "c2"] = [⟨10, [JsNum.num 5]⟩] := by
  refine ⟨?_, ?_, ?_, ?_, by decide⟩
  · intro search linked commit
    constructor
    · intro ⟨r, hr⟩
      cases hs : search commit with
      | nil => unfold resolveCommit at hr; rw [hs] at hr; cases hr
      | cons pr tl =>
        rw [resolveCommit_cons hs] at hr
        cases ht : CHANGESET_PR_TITLES.contains (jsStrLower pr.title) with
        | true => rw [if_pos ht] at hr; cases hr
        | false => exact ⟨pr, tl, rfl, ht⟩
    · intro ⟨pr, tl, hs, ht⟩
      rw [resolveCommit_cons hs]
      rw [if_neg (by rw [ht]; exact Bool.false_ne_true)]
      exact ⟨_, rfl⟩
  · intro search linked commit pr tl hs ht
    rw [resolveCommit_cons hs, if_pos ht]
  · intro search linked commit hs
    unfold resolveCommit
    rw [hs]
  · intro search linked commit pr tl r hs hr
    rw [resolveCommit_cons hs] at hr
    cases ht : CHANGESET_PR_TITLES.contains (jsStrLower pr.title) with
    | true => rw [if_pos ht] at hr; cases hr
    | false =>
      rw [if_neg (by rw [ht]; exact Bool.false_ne_true)] at hr
      cases hr
      rfl

/-- Witness for the C3 theorem: a commit with no pull request emits
nothing. -/
theorem per_commit_emission_rule_witness :
    exSearch "c2" = [] ∧ resolveCommit exSearch exLinked "c2" = none :=
  ⟨rfl, per_commit_emission_rule.2.2.1 exSearch exLinked "c2" rfl⟩

theorem jsSetDedupAux_mem (x : JsNum) :
    ∀ (l : List JsNum) (seen : List JsNum),
      x ∈ jsSetDedupAux seen l ↔ (x ∈ l ∧ ¬ seen.contains x) := by
  intro l
  induction l with
  | nil => intro seen; simp [jsSetDedupAux]
  | cons a t ih =>
    intro seen
    unfold jsSetDedupAux
    by_cases ha : seen.contains a
    · rw [if_pos ha, ih]
      constructor
      · intro ⟨hm, hns⟩
        exact ⟨List.mem_cons_of_mem _ hm, hns⟩
      · intro ⟨hm, hns⟩
        rcases List.mem_cons.mp hm with rfl | hm'
        · exact absurd ha hns
        · exact ⟨hm', hns⟩
    · rw [if_neg ha]
      constructor
      · intro hm
        rcases List.mem_cons.mp hm with rfl | hm'
        · exact ⟨List.mem_cons_self _ _, by simpa using ha⟩
        · obtain ⟨hm'', hns⟩ := (ih (a :: seen)).mp hm'
          simp at hns
          exact ⟨List.mem_cons_of_mem _ hm'', by simpa using hns.2⟩
      · intro ⟨hm, hns⟩
        rcases List.mem_cons.mp hm with rfl | hm'
        · exact List.mem_cons_self _ _
        · by_cases hxa : x = a
          · subst hxa; exact List.mem_cons_self _ _
          · refine List.mem_cons_of_mem _ ((ih (a :: seen)).mpr ⟨hm', ?_⟩)
            simp
            exact ⟨hxa, by simpa using hns⟩

theorem jsSetDedup_mem (l : List JsNum) (x : JsNum) : x ∈ jsSetDedup l ↔ x ∈ l := by
  unfold jsSetDedup
  rw [jsSetDedupAux_mem]
  simp

theorem jsSetDedupAux_nodup : ∀ (l seen : List JsNum), (jsSetDedupAux seen l).Nodup := by
  intro l
  induction l with
  | nil => intro seen; simp [jsSetDedupAux]
  | cons a t ih =>
    intro seen
    unfold jsSetDedupAux
    by_cases ha : seen.contains a
    · rw [if_pos ha]; exact ih seen
    · rw [if_neg ha]
      refine List.Nodup.cons ?_ (ih (a :: seen))
      intro hmem
      have := (jsSetDedupAux_mem a t (a :: seen)).mp hmem
      simp at this

theorem jsSetDedup_nodup (l : List JsNum) : (jsSetDedup l).Nodup := jsSetDedupAux_nodup l []

/-- Claim C5: the `issues` field of an emitted record is the
insertion-ordered deduplicated union of the graph-linked issues and the
body-scanned issues — it has no duplicates and contains an entry exactly
when either source does; in particular graph-linked `{12}` with
body-scanned `{12, 34}` gives exactly `{12, 34}`. -/
theorem issues_dedup_union :
    (∀ (search : String → List PrSearchResult) (linked : String → List Nat)
        (commit : String) (pr : PrSearchResult) (tl : List PrSearchResult) (r : MergedPR),
      search commit = pr :: tl → resolveCommit search linked commit = some r →
      r.issues.Nodup ∧
      ∀ x, x ∈ r.issues ↔
        (x ∈ (linked pr.url).map JsNum.num ∨ x ∈ getIssuesClosedViaBody pr.body)) ∧
    jsSetDedup (([12] : List Nat).map JsNum.num ++ [JsNum.num 12, JsNum.num 34]) =
      [JsNum.num 12, JsNum.num 34] := by
  refine ⟨?_, by decide⟩
  intro search linked commit pr tl r hs hr
  rw [resolveCommit_cons hs] at hr
  cases ht : CHANGESET_PR_TITLES.contains (jsStrLower pr.title) with
  | true => rw [if_pos ht] at hr; cases hr
  | false =>
    rw [if_neg (by rw [ht]; exact Bool.false_ne_true)] at hr
    cases hr
    refine ⟨jsSetDedup_nodup _, ?_⟩
    intro x
    rw [jsSetDedup_mem]
    exact List.mem_append

def w5Search : String → List PrSearchResult := fun _ =>
  [⟨10, "Add feature", "https://github.com/remix-run/remix/pull/10",
    "Fixes #12 and resolves #34"⟩]

def w5Linked : String → List Nat := fun _ => [12]

/-- Witness for the C5 theorem at a concrete pull request with graph-linked
`{12}` and body-scanned `{12, 34}`. -/
theorem issues_dedup_union_witness :
    resolveCommit w5Search w5Linked "c0" = some ⟨10, [JsNum.num 12, JsNum.num 34]⟩ ∧
    ([JsNum.num 12, JsNum.num 34] : List JsNum).Nodup :=
  ⟨by decide,
    (issues_dedup_union.1 w5Search w5Linked "c0" _ [] ⟨10, [JsNum.num 12, JsNum.num 34]⟩
      rfl (by decide)).1⟩

/-- Claim C8: with dry-run enabled the notification phase issues no forge
command at all (in particular no mutating one) and terminates the run
through the dry-run exit. -/
theorem dry_run_no_mutating_calls (latestClean : String) (isStable : Bool)
    (prLabels issueLabels : String) (prs : List MergedPR) :
    (notifyPhase true latestClean isStable prLabels issueLabels prs).commands = [] ∧
    ((notifyPhase true latestClean isStable prLabels issueLabels prs).commands.filter
      isMutating) = [] ∧
    (notifyPhase true latestClean isStable prLabels issueLabels prs).dryRunExit = true :=
  ⟨rfl, rfl, rfl⟩

/-- Claim C9 (counterexample): in live mode the notifier closes a linked
issue without ever issuing the label read the claim requires — the command
trace for pull request 10 with linked issue 5 contains `issue close 5` and
no label query. -/
theorem no_label_fetch_counterexample :
    GhCmd.issueClose (JsNum.num 5) ∈
      (notifyPhase false "2.0.1" true "" "" [⟨10, [JsNum.num 5]⟩]).commands ∧
    GhCmd.issueLabelsQuery (JsNum.num 5) ∉
      (notifyPhase false "2.0.1" true "" "" [⟨10, [JsNum.num 5]⟩]).commands := by
  constructor <;> decide

theorem labelsQuery_not_in_issueCmds (latestClean : String) (isStable : Bool)
    (issueLabels : String) (issue j : JsNum) :
    GhCmd.issueLabelsQuery j ∉ issueCmds latestClean isStable issueLabels issue := by
  unfold issueCmds
  intro h
  rcases List.mem_append.mp h with h1 | h2
  · rcases List.mem_cons.mp h1 with h | h
    · cases h
    · rcases List.mem_cons.mp h with h | h
      · cases h
      · cases h
  · by_cases hc : issueLabels ≠ "" ∧ isStable
    · rw [if_pos hc] at h2
      rcases List.mem_cons.mp h2 with h | h
      · cases h
      · cases h
    · rw [if_neg hc] at h2
      cases h2

theorem labelsQuery_not_in_prCmds (latestClean : String) (isStable : Bool)
    (prLabels issueLabels : String) (pr : MergedPR) (j : JsNum) :
    GhCmd.issueLabelsQuery j ∉ prCmds latestClean isStable prLabels issueLabels pr := by
  unfold prCmds
  intro h
  rcases List.mem_append.mp h with h1 | h2
  · rcases List.mem_append.mp h1 with h | h
    · rcases List.mem_cons.mp h with h | h
      · cases h
      · cases h
    · by_cases hc : prLabels ≠ "" ∧ isStable
      · rw [if_pos hc] at h
        rcases List.mem_cons.mp h with h | h
        · cases h
        · cases h
      · rw [if_neg hc] at h
        cases h
  · obtain ⟨l, hl, hmem⟩ := List.mem_flatten.mp h2
    obtain ⟨i, hi, rfl⟩ := List.mem_map.mp hl
    exact labelsQuery_not_in_issueCmds _ _ _ _ _ hmem

/-- Claim C9 (amended): in live mode, for every linked issue of every
notified pull request, the notifier comments on the issue and closes it
unconditionally — it issues no label read and supports no keep-open label;
when an issue label-removal string is configured and the release is stable
it additionally removes that label. -/
theorem live_close_unconditional (latestClean : String) (isStable : Bool)
    (prLabels issueLabels : String) (prs : List MergedPR) (pr : MergedPR) (issue : JsNum)
    (hpr : pr ∈ prs) (hi : issue ∈ pr.issues) :
    GhCmd.issueComment issue (issueCommentBody latestClean) ∈
      (notifyPhase false latestClean isStable prLabels issueLabels prs).commands ∧
    GhCmd.issueClose issue ∈
      (notifyPhase false latestClean isStable prLabels issueLabels prs).commands ∧
    (issueLabels ≠ "" → isStable = true →
      GhCmd.issueEdit issue issueLabels ∈
        (notifyPhase false latestClean isStable prLabels issueLabels prs).commands) ∧
    (∀ j : JsNum, GhCmd.issueLabelsQuery j ∉
      (notifyPhase false latestClean isStable prLabels issueLabels prs).commands) := by
  have hmem : ∀ c : GhCmd, c ∈ issueCmds latestClean isStable issueLabels issue →
      c ∈ (notifyPhase false latestClean isStable prLabels issueLabels prs).commands := by
    intro c hc
    unfold notifyPhase
    simp only [if_neg (by simp : ¬ (false = true))]
    apply List.mem_flatten.mpr
    refine ⟨prCmds latestClean isStable prLabels issueLabels pr, List.mem_map_of_mem _ hpr, ?_⟩
    unfold prCmds
    apply List.mem_append.mpr
    right
    exact List.mem_flatten.mpr ⟨_, List.mem_map_of_mem _ hi, hc⟩
  refine ⟨?_, ?_, ?_, ?_⟩
  · exact hmem _ (by simp [issueCmds])
  · exact hmem _ (by simp [issueCmds])
  · intro h1 h2
    apply hmem
    unfold issueCmds
    apply List.mem_append.mpr
    right
    rw [if_pos ⟨h1, h2⟩]
    exact List.mem_cons_self _ _
  · intro j hj
    unfold notifyPhase at hj
    simp only [if_neg (by simp : ¬ (false = true))] at hj
    obtain ⟨l, hl, hmem'⟩ := List.mem_flatten.mp hj
    obtain ⟨p, hp, rfl⟩ := List.mem_map.mp hl
    exact labelsQuery_not_in_prCmds _ _ _ _ _ _ hmem'

/-- Witness for the amended C9 theorem at a concrete live-mode run. -/
theorem live_close_unconditional_witness :
    GhCmd.issueClose (JsNum.num 5) ∈
      (notifyPhase false "2.0.1" true "label-a" "label-b" [⟨10, [JsNum.num 5]⟩]).commands ∧
    GhCmd.issueEdit (JsNum.num 5) "label-b" ∈
      (notifyPhase false "2.0.1" true "label-a" "label-b" [⟨10, [JsNum.num 5]⟩]).commands := by
  have h := live_close_unconditional "2.0.1" true "label-a" "label-b" [⟨10, [JsNum.num 5]⟩]
    ⟨10, [JsNum.num 5]⟩ (JsNum.num 5) (List.mem_singleton.mpr rfl)
    (List.mem_singleton.mpr rfl)
  exact ⟨h.2.1, h.2.2.1 (by decide) rfl⟩

/-- The digit-run boundary of an occurrence: the remainder must not start
with a further digit (the regular expression's `[0-9]+` is maximal). -/
def boundaryOk : List Char → Prop
  | [] => True
  | c :: _ => c.isDigit = false

/-- A closing-keyword occurrence at position `i` with issue number `n`:
a keyword (case-insensitively), an optional colon, one whitespace
character, `#`, and a maximal nonempty digit run valued `n`. -/
def wsOccurrenceAt (cs : List Char) (i : Nat) (n : Nat) : Prop :=
  ∃ kw kwPart colonPart w digits rest,
    kw ∈ keywordData ∧
    kwPart.map jsCharLower = kw ∧
    (colonPart = ([] : List Char) ∨ colonPart = [':']) ∧
    isJsWs w = true ∧
    digits ≠ [] ∧ (∀ c ∈ digits, c.isDigit = true) ∧ boundaryOk rest ∧
    cs.drop i = kwPart ++ (colonPart ++ w :: '#' :: (digits ++ rest)) ∧
    digitsToNat digits = n

/-- A closing-keyword occurrence whose whitespace is a space character. -/
def spaceOccurrenceAt (cs : List Char) (i : Nat) (n : Nat) : Prop :=
  ∃ kw kwPart colonPart digits rest,
    kw ∈ keywordData ∧
    kwPart.map jsCharLower = kw ∧
    (colonPart = ([] : List Char) ∨ colonPart = [':']) ∧
    digits ≠ [] ∧ (∀ c ∈ digits, c.isDigit = true) ∧ boundaryOk rest ∧
    cs.drop i = kwPart ++ (colonPart ++ ' ' :: '#' :: (digits ++ rest)) ∧
    digitsToNat digits = n

/-- Claim C4 (counterexample): in `"Fixes\t#12"` the issue number 12
occurs after the keyword, a whitespace character (a tab) and `#`, yet the
extraction returns `[NaN]` — `match.split(" #")` finds no space-hash
separator, so `parseInt(undefined)` yields `NaN` instead of 12. -/
theorem body_scan_tab_nan_counterexample :
    wsOccurrenceAt "Fixes\t#12".data 0 12 ∧
    JsNum.num 12 ∉ getIssuesClosedViaBody "Fixes\t#12" ∧
    getIssuesClosedViaBody "Fixes\t#12" = [JsNum.nan] := by
  refine ⟨?_, by decide, by decide⟩
  refine ⟨"fixes".data, "Fixes".data, [], '\t', ['1', '2'], [], ?_, ?_, ?_, ?_, ?_, ?_, ?_, ?_, ?_⟩
  · decide
  · decide
  · left; rfl
  · decide
  · decide
  · decide
  · trivial
  · decide
  · decide

theorem lower_eq_self_or_upper (c : Char) :
    jsCharLower c = c ∨ c ∈ ['A', 'B', 'C', 'D', 'E', 'F', 'G', 'H', 'I', 'J', 'K', 'L', 'M',
      'N', 'O', 'P', 'Q', 'R', 'S', 'T', 'U', 'V', 'W', 'X', 'Y', 'Z'] := by
  unfold jsCharLower
  split <;> first | (left; rfl) | (right; decide)

theorem digit_lower_self {c : Char} (h : c.isDigit = true) : jsCharLower c = c := by
  rcases lower_eq_self_or_upper c with h1 | h1
  · exact h1
  · exfalso
    fin_cases h1 <;> exact absurd h (by decide)

theorem ws_lower_self {c : Char} (h : isJsWs c = true) : jsCharLower c = c := by
  rcases lower_eq_self_or_upper c with h1 | h1
  · exact h1
  · exfalso
    fin_cases h1 <;> exact absurd h (by decide)

theorem colon_lower {c : Char} (h : jsCharLower c = ':') : c = ':' := by
  rcases lower_eq_self_or_upper c with h1 | h1
  · rw [← h1, h]
  · exfalso
    fin_cases h1 <;> exact absurd h (by decide)

theorem takeWhile_append_all {α : Type} {p : α → Bool} :
    ∀ {xs ys : List α}, (∀ x ∈ xs, p x = true) →
      (ys = [] ∨ ∃ y ys', ys = y :: ys' ∧ p y = false) →
      (xs ++ ys).takeWhile p = xs ∧ (xs ++ ys).dropWhile p = ys := by
  intro xs
  induction xs with
  | nil =>
    intro ys _ hy
    rcases hy with rfl | ⟨y, ys', rfl, hy⟩
    · exact ⟨rfl, rfl⟩
    · simp [List.takeWhile, List.dropWhile, hy]
  | cons a t ih =>
    intro ys ha hy
    have hpa : p a = true := ha a (List.mem_cons_self _ _)
    have := ih (fun x hx => ha x (List.mem_cons_of_mem _ hx)) hy
    simp [List.takeWhile, List.dropWhile, hpa, this.1, this.2]

theorem caselessKw_sound :
    ∀ {kw cs m r : List Char}, caselessKw kw cs = some (m, r) →
      cs = m ++ r ∧ m.map jsCharLower = kw := by
  intro kw
  induction kw with
  | nil => intro cs m r h; cases cs <;> (unfold caselessKw at h; cases h; exact ⟨rfl, rfl⟩)
  | cons k kt ih =>
    intro cs m r h
    cases cs with
    | nil => unfold caselessKw at h; cases h
    | cons c ct =>
      unfold caselessKw at h
      by_cases hc : jsCharLower c = k
      · rw [if_pos hc] at h
        cases hm : caselessKw kt ct with
        | none => rw [hm] at h; cases h
        | some pr =>
          obtain ⟨m', r'⟩ := pr
          rw [hm] at h
          cases h
          obtain ⟨h1, h2⟩ := ih hm
          exact ⟨by rw [h1]; rfl, by simp [h2, hc]⟩
      · rw [if_neg hc] at h; cases h

theorem caselessKw_complete :
    ∀ {kw kwPart rest2 : List Char}, kwPart.map jsCharLower = kw →
      caselessKw kw (kwPart ++ rest2) = some (kwPart, rest2) := by
  intro kw
  induction kw with
  | nil =>
    intro kwPart rest2 h
    rw [List.map_eq_nil_iff] at h
    subst h
    rfl
  | cons k kt ih =>
    intro kwPart rest2 h
    cases kwPart with
    | nil => simp at h
    | cons c ct =>
      simp only [List.map_cons, List.cons.injEq] at h
      obtain ⟨h1, h2⟩ := h
      show (if jsCharLower c = k then
          match caselessKw kt (ct ++ rest2) with
          | some (m, r) => some (c :: m, r)
          | none => none
        else none) = some (c :: ct, rest2)
      rw [if_pos h1, ih h2]

theorem matchWsHash_complete {w : Char} {digits rest : List Char}
    (hw : isJsWs w = true) (hd : digits ≠ []) (hall : ∀ c ∈ digits, c.isDigit = true)
    (hb : boundaryOk rest) :
    matchWsHash (w :: '#' :: (digits ++ rest)) = some (w :: '#' :: digits, rest) := by
  have hbnd : rest = [] ∨ ∃ y ys', rest = y :: ys' ∧ y.isDigit = false := by
    cases rest with
    | nil => exact Or.inl rfl
    | cons y ys => exact Or.inr ⟨y, ys, rfl, hb⟩
  obtain ⟨ht, hdr⟩ := takeWhile_append_all hall hbnd
  show (if isJsWs w then
      match (digits ++ rest).takeWhile Char.isDigit with
      | [] => none
      | ds => some (w :: '#' :: ds, (digits ++ rest).dropWhile Char.isDigit)
    else none) = some (w :: '#' :: digits, rest)
  rw [if_pos hw, ht, hdr]
  cases digits with
  | nil => exact absurd rfl hd
  | cons d ds => rfl

theorem matchWsHash_not_ws {c : Char} {t : List Char} (hc : isJsWs c = false) :
    matchWsHash (c :: t) = none := by
  unfold matchWsHash
  split
  · rename_i w ds heq
    cases heq
    rw [if_neg (by rw [hc]; exact Bool.false_ne_true)]
  · rfl

theorem matchWsHash_sound {cs m r : List Char} (h : matchWsHash cs = some (m, r)) :
    ∃ w digits, cs = m ++ r ∧ m = w :: '#' :: digits ∧ isJsWs w = true ∧
      digits ≠ [] ∧ (∀ c ∈ digits, c.isDigit = true) ∧ boundaryOk r := by
  unfold matchWsHash at h
  split at h
  · rename_i w ds
    by_cases hw : isJsWs w
    · rw [if_pos hw] at h
      cases ht : ds.takeWhile Char.isDigit with
      | nil => rw [ht] at h; cases h
      | cons d dt =>
        rw [ht] at h
        cases h
        refine ⟨w, d :: dt, ?_, rfl, hw, by simp, ?_, ?_⟩
        · have hds : ds = (d :: dt) ++ ds.dropWhile Char.isDigit := by
            conv_lhs => rw [← List.takeWhile_append_dropWhile Char.isDigit ds]
            rw [ht]
          conv_lhs => rw [hds]
          simp
        · intro c hc
          rw [← ht] at hc
          exact List.mem_takeWhile_imp hc
        · cases hdr : ds.dropWhile Char.isDigit with
          | nil => trivial
          | cons y ys => exact dropWhile_head_false hdr
    · rw [if_neg hw] at h; cases h
  · cases h

theorem matchColonTail_nil : matchColonTail [] = none := rfl

theorem matchColonTail_not_start {c : Char} {t : List Char}
    (hws : isJsWs c = false) (hcolon : c ≠ ':') :
    matchColonTail (c :: t) = none := by
  unfold matchColonTail
  split
  · rename_i rest heq
    cases heq
    exact absurd rfl hcolon
  · exact matchWsHash_not_ws hws

theorem matchColonTail_complete {colonPart : List Char} {w : Char} {digits rest : List Char}
    (hc : colonPart = [] ∨ colonPart = [':'])
    (hw : isJsWs w = true) (hd : digits ≠ []) (hall : ∀ c ∈ digits, c.isDigit = true)
    (hb : boundaryOk rest) :
    matchColonTail (colonPart ++ w :: '#' :: (digits ++ rest)) =
      some (colonPart ++ w :: '#' :: digits, rest) := by
  rcases hc with rfl | rfl
  · rw [List.nil_append, List.nil_append]
    unfold matchColonTail
    split
    · rename_i rest' heq
      have : w = ':' := by cases heq; rfl
      rw [this] at hw
      exact absurd hw (by decide)
    · exact matchWsHash_complete hw hd hall hb
  · show (match matchWsHash (w :: '#' :: (digits ++ rest)) with
        | some (m, r) => some (':' :: m, r)
        | none => matchWsHash (':' :: (w :: '#' :: (digits ++ rest)))) =
      some (':' :: (w :: '#' :: digits), rest)
    rw [matchWsHash_complete hw hd hall hb]

theorem matchColonTail_sound {cs m r : List Char} (h : matchColonTail cs = some (m, r)) :
    cs = m ++ r ∧ ∃ colonPart w digits, m = colonPart ++ w :: '#' :: digits ∧
      (colonPart = ([] : List Char) ∨ colonPart = [':']) ∧ isJsWs w = true ∧
      digits ≠ [] ∧ (∀ c ∈ digits, c.isDigit = true) ∧ boundaryOk r := by
  unfold matchColonTail at h
  split at h
  · rename_i rest
    cases hm : matchWsHash rest with
    | some pr =>
      obtain ⟨m', r'⟩ := pr
      rw [hm] at h
      cases h
      obtain ⟨w, digits, heq, hm', hw, hd, hall, hb⟩ := matchWsHash_sound hm
      exact ⟨by rw [heq]; rfl, [':'], w, digits, by rw [hm']; rfl, Or.inr rfl, hw, hd, hall, hb⟩
    | none =>
      rw [hm] at h
      rw [matchWsHash_not_ws (by decide)] at h
      cases h
  · obtain ⟨w, digits, heq, hm', hw, hd, hall, hb⟩ := matchWsHash_sound h
    exact ⟨heq, [], w, digits, by rw [hm']; rfl, Or.inl rfl, hw, hd, hall, hb⟩

theorem findSome?_exists {α β : Type} {f : α → Option β} :
    ∀ {l : List α} {b : β}, l.findSome? f = some b → ∃ a ∈ l, f a = some b := by
  intro l
  induction l with
  | nil => intro b h; simp [List.findSome?] at h
  | cons a t ih =>
    intro b h
    rw [List.findSome?] at h
    cases hfa : f a with
    | some b' =>
      rw [hfa] at h
      cases h
      exact ⟨a, List.mem_cons_self _ _, hfa⟩
    | none =>
      rw [hfa] at h
      obtain ⟨a', ha', hfa'⟩ := ih h
      exact ⟨a', List.mem_cons_of_mem _ ha', hfa'⟩

theorem findSome?_eq_of_unique {α β : Type} [DecidableEq α] {f : α → Option β} :
    ∀ {l : List α} {a : α} {b : β}, a ∈ l → f a = some b →
      (∀ a' ∈ l, a' ≠ a → f a' = none) → l.findSome? f = some b := by
  intro l
  induction l with
  | nil => intro a b h; cases h
  | cons x t ih =>
    intro a b ha hfa hothers
    rw [List.findSome?]
    by_cases hxa : x = a
    · subst hxa
      rw [hfa]
    · rw [hothers x (List.mem_cons_self _ _) hxa]
      rcases List.mem_cons.mp ha with rfl | ha'
      · exact absurd rfl hxa
      · exact ih ha' hfa (fun a' ha'' hne => hothers a' (List.mem_cons_of_mem _ ha'') hne)

theorem append_split_of_le {α : Type} :
    ∀ {a c b d : List α}, a ++ b = c ++ d → a.length ≤ c.length →
      ∃ mid, c = a ++ mid ∧ b = mid ++ d := by
  intro a
  induction a with
  | nil => intro c b d h _; exact ⟨c, rfl, h⟩
  | cons x a' ih =>
    intro c b d h hle
    cases c with
    | nil => simp at hle
    | cons y c' =>
      simp only [List.cons_append, List.cons.injEq] at h
      obtain ⟨rfl, h2⟩ := h
      obtain ⟨mid, hm1, hm2⟩ := ih h2 (by simpa using hle)
      exact ⟨mid, by rw [hm1]; rfl, hm2⟩

theorem kwFacts : ∀ kw ∈ keywordData, kw ≠ [] ∧
    ∀ c ∈ kw, c.isAlpha = true ∧ jsCharLower c = c ∧ isJsWs c = false ∧
      c ≠ ':' ∧ c ≠ '#' ∧ c ≠ ' ' ∧ c.isDigit = false := by
  decide

theorem kwHeads : ∀ kw ∈ keywordData,
    kw.head? = some 'c' ∨ kw.head? = some 'f' ∨ kw.head? = some 'r' := by
  decide

theorem kwTails : ∀ kw ∈ keywordData, ∀ c ∈ kw.tail, c ≠ 'c' ∧ c ≠ 'f' ∧ c ≠ 'r' := by
  decide

theorem matchAlt_sound {cs kw m rest : List Char} (h : matchAlt cs kw = some (m, rest)) :
    cs = m ++ rest ∧ ∃ kwPart colonPart w digits,
      m = kwPart ++ (colonPart ++ w :: '#' :: digits) ∧
      kwPart.map jsCharLower = kw ∧
      (colonPart = ([] : List Char) ∨ colonPart = [':']) ∧ isJsWs w = true ∧
      digits ≠ [] ∧ (∀ c ∈ digits, c.isDigit = true) ∧ boundaryOk rest := by
  unfold matchAlt at h
  cases hck : caselessKw kw cs with
  | none => rw [hck] at h; cases h
  | some pr =>
    obtain ⟨kwPart, r⟩ := pr
    rw [hck] at h
    dsimp only at h
    cases hct : matchColonTail r with
    | none => rw [hct] at h; cases h
    | some pr2 =>
      obtain ⟨m2, rest2⟩ := pr2
      rw [hct] at h
      cases h
      obtain ⟨hcs, hmap⟩ := caselessKw_sound hck
      obtain ⟨hr, colonPart, w, digits, hm2, hcol, hw, hd, hall, hb⟩ := matchColonTail_sound hct
      exact ⟨by rw [hcs, hr]; simp, kwPart, colonPart, w, digits, by rw [hm2], hmap,
        hcol, hw, hd, hall, hb⟩

theorem matchAlt_complete {kw kwPart colonPart : List Char} {w : Char} {digits rest : List Char}
    (hmap : kwPart.map jsCharLower = kw)
    (hcol : colonPart = ([] : List Char) ∨ colonPart = [':'])
    (hw : isJsWs w = true) (hd : digits ≠ []) (hall : ∀ c ∈ digits, c.isDigit = true)
    (hb : boundaryOk rest) :
    matchAlt (kwPart ++ (colonPart ++ w :: '#' :: (digits ++ rest))) kw =
      some (kwPart ++ (colonPart ++ w :: '#' :: digits), rest) := by
  unfold matchAlt
  rw [caselessKw_complete hmap]
  dsimp only
  rw [matchColonTail_complete hcol hw hd hall hb]

theorem matchAlt_other_none {kw kw' kwPart colonPart : List Char} {w : Char} {u : List Char}
    (hkw : kw ∈ keywordData) (hkw' : kw' ∈ keywordData) (hne : kw' ≠ kw)
    (hmap : kwPart.map jsCharLower = kw)
    (hcol : colonPart = ([] : List Char) ∨ colonPart = [':'])
    (hw : isJsWs w = true) :
    matchAlt (kwPart ++ (colonPart ++ w :: '#' :: u)) kw' = none := by
  unfold matchAlt
  cases hck : caselessKw kw' (kwPart ++ (colonPart ++ w :: '#' :: u)) with
  | none => rfl
  | some pr =>
    obtain ⟨m', r'⟩ := pr
    obtain ⟨hcs, hmap'⟩ := caselessKw_sound hck
    have hlm : m'.length = kw'.length := by rw [← hmap']; simp
    have hlk : kwPart.length = kw.length := by rw [← hmap]; simp
    rcases Nat.lt_trichotomy kw'.length kw.length with hlt | heqn | hgt
    · -- kw' shorter: caselessKw consumed a proper prefix of kwPart
      obtain ⟨mid, hc1, hc2⟩ := append_split_of_le hcs.symm (by omega)
      cases mid with
      | nil =>
        have : kwPart.length = m'.length := by rw [hc1]; simp
        omega
      | cons cm mt =>
        have hcm : jsCharLower cm ∈ kw := by
          have : kw = kw' ++ (jsCharLower cm :: mt.map jsCharLower) := by
            rw [← hmap, hc1, List.map_append, hmap']
            rfl
          rw [this]
          exact List.mem_append_right _ (List.mem_cons_self _ _)
        obtain ⟨-, hchar⟩ := kwFacts kw hkw
        obtain ⟨-, hlow, hws, hcolon, -, -, -⟩ := hchar _ hcm
        have hcmws : isJsWs cm = false := by
          by_contra hcmws
          have hcmws' : isJsWs cm = true := by
            cases hx : isJsWs cm
            · exact absurd hx hcmws
            · rfl
          rw [ws_lower_self hcmws'] at hws hcm
          rw [hws] at hcmws'
          cases hcmws'
        have hcmcolon : cm ≠ ':' := by
          intro hcm'
          subst hcm'
          exact hcolon (by decide)
        dsimp only
        rw [hc2]
        rw [List.cons_append, matchColonTail_not_start hcmws hcmcolon]
    · -- equal length: kw' = kw
      obtain ⟨h1, -⟩ := List.append_inj hcs.symm (by omega)
      exact absurd (by rw [← hmap', h1, hmap]) hne
    · -- kw' longer: consumed past the keyword into the colon/whitespace
      exfalso
      obtain ⟨mid, hc1, hc2⟩ := append_split_of_le hcs (by omega)
      cases mid with
      | nil =>
        have : m'.length = kwPart.length := by rw [hc1]; simp
        omega
      | cons cm mt =>
        have hcm : jsCharLower cm ∈ kw' := by
          have : kw' = kw ++ (jsCharLower cm :: mt.map jsCharLower) := by
            rw [← hmap', hc1, List.map_append, hmap]
            rfl
          rw [this]
          exact List.mem_append_right _ (List.mem_cons_self _ _)
        obtain ⟨-, hchar⟩ := kwFacts kw' hkw'
        obtain ⟨-, hlow, hws, hcolon, -, -, -⟩ := hchar _ hcm
        rcases hcol with rfl | rfl
        · -- colonPart empty: cm = w, a whitespace
          have hcmw : cm = w := by
            rw [List.nil_append] at hc2
            injection hc2 with h1 h2
            exact h1.symm
          subst hcmw
          rw [ws_lower_self hw] at hws hcm
          rw [hws] at hw
          cases hw
        · -- colonPart = [':']: cm = ':'
          have hcmw : cm = ':' := by
            rw [List.cons_append, List.nil_append] at hc2
            injection hc2 with h1 h2
            exact h1.symm
          subst hcmw
          exact hcolon (by decide)

theorem matchAt_sound {cs m rest : List Char} (h : matchAt cs = some (m, rest)) :
    cs = m ++ rest ∧ ∃ kw kwPart colonPart w digits,
      kw ∈ keywordData ∧ m = kwPart ++ (colonPart ++ w :: '#' :: digits) ∧
      kwPart.map jsCharLower = kw ∧
      (colonPart = ([] : List Char) ∨ colonPart = [':']) ∧ isJsWs w = true ∧
      digits ≠ [] ∧ (∀ c ∈ digits, c.isDigit = true) ∧ boundaryOk rest := by
  obtain ⟨kw, hkw, halt⟩ := findSome?_exists h
  obtain ⟨hcs, kwPart, colonPart, w, digits, hm, hmap, hcol, hw, hd, hall, hb⟩ :=
    matchAlt_sound halt
  exact ⟨hcs, kw, kwPart, colonPart, w, digits, hkw, hm, hmap, hcol, hw, hd, hall, hb⟩

theorem matchAt_m_ne_nil {cs m rest : List Char} (h : matchAt cs = some (m, rest)) :
    m ≠ [] := by
  obtain ⟨-, kw, kwPart, colonPart, w, digits, hkw, hm, hmap, -, -, -, -, -⟩ := matchAt_sound h
  intro hnil
  rw [hnil] at hm
  cases kwPart with
  | nil =>
    have : kw = [] := by rw [← hmap]; rfl
    exact (kwFacts kw hkw).1 this
  | cons a b => cases hm

theorem spaceOcc_head {cs : List Char} {i n : Nat} (h : spaceOccurrenceAt cs i n) :
    ∃ c0 t, cs.drop i = c0 :: t ∧
      (jsCharLower c0 = 'c' ∨ jsCharLower c0 = 'f' ∨ jsCharLower c0 = 'r') := by
  obtain ⟨kw, kwPart, colonPart, digits, rest, hkw, hmap, hcol, hd, hall, hb, heq, hn⟩ := h
  cases kwPart with
  | nil =>
    exfalso
    exact (kwFacts kw hkw).1 (by rw [← hmap]; rfl)
  | cons k0 kt =>
    refine ⟨k0, kt ++ (colonPart ++ ' ' :: '#' :: (digits ++ rest)), by rw [heq]; simp, ?_⟩
    have hh : kw.head? = some (jsCharLower k0) := by rw [← hmap]; rfl
    rcases kwHeads kw hkw with h1 | h1 | h1
    · exact Or.inl (Option.some.inj (hh.symm.trans h1))
    · exact Or.inr (Or.inl (Option.some.inj (hh.symm.trans h1)))
    · exact Or.inr (Or.inr (Option.some.inj (hh.symm.trans h1)))

theorem matchAt_tail_chars {cs m rest : List Char} (h : matchAt cs = some (m, rest)) :
    ∀ c ∈ m.tail, jsCharLower c ≠ 'c' ∧ jsCharLower c ≠ 'f' ∧ jsCharLower c ≠ 'r' := by
  obtain ⟨-, kw, kwPart, colonPart, w, digits, hkw, hm, hmap, hcol, hw, hd, hall, hb⟩ :=
    matchAt_sound h
  intro c hc
  cases kwPart with
  | nil => exact absurd (by rw [← hmap]; rfl : kw = []) (kwFacts kw hkw).1
  | cons k0 kt =>
    rw [hm] at hc
    have hc' : c ∈ kt ++ (colonPart ++ w :: '#' :: digits) := hc
    have hcfr : jsCharLower c = 'c' ∨ jsCharLower c = 'f' ∨ jsCharLower c = 'r' → False := by
      intro hcase
      rcases List.mem_append.mp hc' with hkt | hrest
      · -- c is a keyword tail character
        have hmem : jsCharLower c ∈ kw.tail := by
          have : kw = jsCharLower k0 :: kt.map jsCharLower := by rw [← hmap]; rfl
          rw [this]
          exact List.mem_map_of_mem _ hkt
        obtain ⟨hc1, hc2, hc3⟩ := kwTails kw hkw _ hmem
        rcases hcase with hx | hx | hx
        · exact hc1 hx
        · exact hc2 hx
        · exact hc3 hx
      · rcases List.mem_append.mp hrest with hcp | htl
        · -- c is the colon
          have : c = ':' := by
            rcases hcol with rfl | rfl
            · cases hcp
            · rcases List.mem_cons.mp hcp with rfl | hx
              · rfl
              · cases hx
          subst this
          rcases hcase with hx | hx | hx <;> cases hx
        · rcases List.mem_cons.mp htl with rfl | htl2
          · -- c = w, a whitespace
            rw [ws_lower_self hw] at hcase
            rcases hcase with rfl | rfl | rfl <;> exact absurd hw (by decide)
          · rcases List.mem_cons.mp htl2 with rfl | hdg
            · rcases hcase with hx | hx | hx <;> cases hx
            · -- c is a digit
              have hdig := hall c hdg
              rw [digit_lower_self hdig] at hcase
              rcases hcase with rfl | rfl | rfl <;> exact absurd hdig (by decide)
    exact ⟨fun hx => hcfr (Or.inl hx), fun hx => hcfr (Or.inr (Or.inl hx)),
      fun hx => hcfr (Or.inr (Or.inr hx))⟩

theorem splitSpaceHash_no_space : ∀ {b : List Char}, ' ' ∉ b → splitSpaceHash b = [b] := by
  intro b
  induction b with
  | nil => intro _; rfl
  | cons c t ih =>
    intro h
    have hc : c ≠ ' ' := fun hcc => h (by rw [hcc]; exact List.mem_cons_self _ _)
    have ht : ' ' ∉ t := fun hm => h (List.mem_cons_of_mem _ hm)
    unfold splitSpaceHash
    split
    · rename_i heq
      simp at heq
    · rename_i rest heq
      injection heq with h1 h2
      exact absurd h1 hc
    · rename_i c' rest hguard heq
      injection heq with h1 h2
      subst h1
      rw [← h2, ih ht]

theorem splitSpaceHash_append : ∀ {a : List Char}, ' ' ∉ a → ∀ (b : List Char),
    splitSpaceHash (a ++ ' ' :: '#' :: b) = a :: splitSpaceHash b := by
  intro a
  induction a with
  | nil => intro _ b; rfl
  | cons c t ih =>
    intro h b
    have hc : c ≠ ' ' := fun hcc => h (by rw [hcc]; exact List.mem_cons_self _ _)
    have ht : ' ' ∉ t := fun hm => h (List.mem_cons_of_mem _ hm)
    show splitSpaceHash (c :: (t ++ ' ' :: '#' :: b)) = (c :: t) :: splitSpaceHash b
    conv_lhs => unfold splitSpaceHash
    split
    · rename_i heq
      simp at heq
    · rename_i rest heq
      injection heq with h1 h2
      exact absurd h1 hc
    · rename_i c' rest hguard heq
      injection heq with h1 h2
      subst h1
      rw [← h2, ih ht b]

theorem takeWhile_all {p : Char → Bool} {l : List Char} (h : ∀ x ∈ l, p x = true) :
    l.takeWhile p = l := by
  have := @takeWhile_append_all _ _ _ [] h (Or.inl rfl)
  simpa using this.1

theorem extract_space_match {kw kwPart colonPart digits : List Char}
    (hkw : kw ∈ keywordData)
    (hmap : kwPart.map jsCharLower = kw)
    (hcol : colonPart = ([] : List Char) ∨ colonPart = [':'])
    (hd : digits ≠ []) (hall : ∀ c ∈ digits, c.isDigit = true) :
    extractMatch (kwPart ++ (colonPart ++ ' ' :: '#' :: digits)) =
      JsNum.num (digitsToNat digits) := by
  have hsp : ' ' ∉ kwPart ++ colonPart := by
    intro hmem
    rcases List.mem_append.mp hmem with hk | hcp
    · have : jsCharLower ' ' ∈ kw := by
        rw [← hmap]
        exact List.mem_map_of_mem _ hk
      have hws := ((kwFacts kw hkw).2 _ this).2.2.1
      rw [(by decide : jsCharLower ' ' = ' ')] at hws
      exact absurd hws (by decide)
    · rcases hcol with rfl | rfl
      · cases hcp
      · rcases List.mem_cons.mp hcp with hx | hx
        · cases hx
        · cases hx
  have hspd : ' ' ∉ digits := by
    intro hmem
    have := hall _ hmem
    exact absurd this (by decide)
  have hassoc : kwPart ++ (colonPart ++ ' ' :: '#' :: digits) =
      (kwPart ++ colonPart) ++ ' ' :: '#' :: digits := by simp
  unfold extractMatch
  rw [hassoc, splitSpaceHash_append hsp digits, splitSpaceHash_no_space hspd]
  show jsParseInt (some digits) = JsNum.num (digitsToNat digits)
  unfold jsParseInt
  dsimp only
  rw [takeWhile_all hall]
  cases digits with
  | nil => exact absurd rfl hd
  | cons d dt => rfl

theorem matchAt_space_occ {cs : List Char} {n : Nat} (h : spaceOccurrenceAt cs 0 n) :
    ∃ m rest, matchAt cs = some (m, rest) ∧ extractMatch m = JsNum.num n ∧ cs = m ++ rest := by
  obtain ⟨kw, kwPart, colonPart, digits, rest, hkw, hmap, hcol, hd, hall, hb, heq, hn⟩ := h
  rw [List.drop_zero] at heq
  have halt : matchAlt cs kw = some (kwPart ++ (colonPart ++ ' ' :: '#' :: digits), rest) := by
    rw [heq]
    exact @matchAlt_complete _ _ _ ' ' _ _ hmap hcol (by decide) hd hall hb
  have hothers : ∀ kw' ∈ keywordData, kw' ≠ kw → matchAlt cs kw' = none := by
    intro kw' hkw' hne
    rw [heq]
    exact @matchAlt_other_none _ _ _ _ ' ' _ hkw hkw' hne hmap hcol (by decide)
  have hat : matchAt cs = some (kwPart ++ (colonPart ++ ' ' :: '#' :: digits), rest) :=
    findSome?_eq_of_unique hkw halt hothers
  refine ⟨_, _, hat, ?_, ?_⟩
  · rw [extract_space_match hkw hmap hcol hd hall, hn]
  · rw [heq]
    simp

theorem spaceOcc_not_nil {i n : Nat} (h : spaceOccurrenceAt [] i n) : False := by
  obtain ⟨c0, t, heq, -⟩ := spaceOcc_head h
  simp at heq

theorem spaceOcc_cons {c : Char} {cs : List Char} {i n : Nat}
    (h : spaceOccurrenceAt (c :: cs) (i + 1) n) : spaceOccurrenceAt cs i n := by
  obtain ⟨kw, kwPart, colonPart, digits, rest, hkw, hmap, hcol, hd, hall, hb, heq, hn⟩ := h
  exact ⟨kw, kwPart, colonPart, digits, rest, hkw, hmap, hcol, hd, hall, hb, heq, hn⟩

theorem spaceOcc_of_append {m rest : List Char} {i n : Nat}
    (h : spaceOccurrenceAt (m ++ rest) i n) (hm : m.length ≤ i) :
    spaceOccurrenceAt rest (i - m.length) n := by
  obtain ⟨kw, kwPart, colonPart, digits, rest2, hkw, hmap, hcol, hd, hall, hb, heq, hn⟩ := h
  refine ⟨kw, kwPart, colonPart, digits, rest2, hkw, hmap, hcol, hd, hall, hb, ?_, hn⟩
  rw [← heq]
  have hi : i = m.length + (i - m.length) := by omega
  conv_rhs => rw [hi]
  rw [List.drop_append]

theorem no_occ_inside_match {cs m rest : List Char} {i n : Nat}
    (hat : matchAt cs = some (m, rest)) (h : spaceOccurrenceAt cs i n)
    (h1 : 1 ≤ i) (h2 : i < m.length) : False := by
  obtain ⟨c0, t, hdrop, hcfr⟩ := spaceOcc_head h
  obtain ⟨hcs, -⟩ := matchAt_sound hat
  have hmd : cs.drop i = m.drop i ++ rest := by
    rw [hcs, List.drop_append_of_le_length (by omega)]
  obtain ⟨j, rfl⟩ : ∃ j, i = j + 1 := ⟨i - 1, by omega⟩
  cases m with
  | nil => simp at h2
  | cons a am =>
    have hmd2 : (a :: am).drop (j + 1) = am.drop j := rfl
    rw [hmd2] at hmd
    cases hdj : am.drop j with
    | nil =>
      rw [hdj] at hmd
      have hlen := congrArg List.length hdj
      simp at hlen h2
      omega
    | cons d0 dt =>
      rw [hmd, hdj, List.cons_append] at hdrop
      injection hdrop with hd0 hrest
      have hd0mem : d0 ∈ am := List.drop_subset j am (by rw [hdj]; exact List.mem_cons_self _ _)
      obtain ⟨t1, t2, t3⟩ := matchAt_tail_chars hat d0 hd0mem
      rcases hcfr with hx | hx | hx <;> rw [← hd0] at * <;>
        [exact t1 hx; exact t2 hx; exact t3 hx]

theorem scanAux_complete : ∀ (fuel : Nat) (cs : List Char), cs.length ≤ fuel →
    ∀ i n, spaceOccurrenceAt cs i n →
      JsNum.num n ∈ (scanAux fuel cs).map extractMatch := by
  intro fuel
  induction fuel with
  | zero =>
    intro cs hlen i n hocc
    have hnil : cs = [] := List.length_eq_zero.mp (by omega)
    subst hnil
    exact absurd hocc (fun h => spaceOcc_not_nil h)
  | succ f ih =>
    intro cs hlen i n hocc
    cases cs with
    | nil => exact absurd hocc (fun h => spaceOcc_not_nil h)
    | cons c cs' =>
      cases hat : matchAt (c :: cs') with
      | some pr =>
        obtain ⟨m, rest⟩ := pr
        have hscan : scanAux (f + 1) (c :: cs') = m :: scanAux f rest := by
          conv_lhs => unfold scanAux
          rw [hat]
        rw [hscan]
        rcases Nat.lt_or_ge i 1 with hi | hi
        · have hi0 : i = 0 := by omega
          subst hi0
          obtain ⟨m0, rest0, hat0, hex, -⟩ := matchAt_space_occ hocc
          rw [hat0] at hat
          injection hat with hat
          injection hat with hm0 hrest0
          rw [List.map_cons, ← hm0, hex]
          exact List.mem_cons_self _ _
        · rcases Nat.lt_or_ge i m.length with him | him
          · exact (no_occ_inside_match hat hocc hi him).elim
          · obtain ⟨hcs, -⟩ := matchAt_sound hat
            have hocc' : spaceOccurrenceAt rest (i - m.length) n :=
              spaceOcc_of_append (by rw [← hcs]; exact hocc) him
            have hm1 : m ≠ [] := matchAt_m_ne_nil hat
            have hlen' : rest.length ≤ f := by
              have hlcs := congrArg List.length hcs
              simp at hlcs
              cases m with
              | nil => exact absurd rfl hm1
              | cons a b =>
                simp at hlcs
                simp at hlen
                omega
            have hmem := ih rest hlen' _ _ hocc'
            rw [List.map_cons]
            exact List.mem_cons_of_mem _ hmem
      | none =>
        have hscan : scanAux (f + 1) (c :: cs') = scanAux f cs' := by
          conv_lhs => unfold scanAux
          rw [hat]
        rw [hscan]
        cases i with
        | zero =>
          obtain ⟨m0, rest0, hat0, -, -⟩ := matchAt_space_occ hocc
          rw [hat0] at hat
          cases hat
        | succ j =>
          exact ih cs' (by simpa using hlen) j n (spaceOcc_cons hocc)

instance : ∀ l : List Char, Decidable (boundaryOk l)
  | [] => isTrue trivial
  | c :: _ => (inferInstance : Decidable (c.isDigit = false))

/-- Claim C4 (amended): the body-scan extraction returns every issue
number that occurs anywhere in the body immediately after one of the
closing keywords (optionally followed by a colon), then a single space
character, then a `#`-prefixed maximal digit run; matching is
case-insensitive and finds multiple independent occurrences, e.g.
`"Fixes #12 and resolves #34"` yields `{12, 34}`. -/
theorem body_scan_space_complete :
    (∀ (body : String) (i n : Nat), spaceOccurrenceAt body.data i n →
      JsNum.num n ∈ getIssuesClosedViaBody body) ∧
    getIssuesClosedViaBody "Fixes #12 and resolves #34" = [JsNum.num 12, JsNum.num 34] := by
  refine ⟨?_, by decide⟩
  intro body i n hocc
  have hmem := scanAux_complete body.data.length body.data le_rfl i n hocc
  have hbody : body ≠ "" := by
    intro hb
    subst hb
    exact spaceOcc_not_nil hocc
  unfold getIssuesClosedViaBody
  rw [if_neg hbody]
  unfold jsMatchList at hmem ⊢
  cases hms : scanAux body.data.length body.data with
  | nil =>
    rw [hms] at hmem
    simp at hmem
  | cons m ms =>
    rw [hms] at hmem
    exact hmem


/-- Witness for the amended C4 theorem: the occurrence `Fixes #12` at
position 0 of the example body is extracted. -/
theorem body_scan_space_complete_witness :
    JsNum.num 12 ∈ getIssuesClosedViaBody "Fixes #12 and resolves #34" :=
  body_scan_space_complete.1 "Fixes #12 and resolves #34" 0 12
    ⟨"fixes".data, "Fixes".data, [], ['1', '2'], " and resolves #34".data,
      by decide, by decide, Or.inl rfl, by decide, by decide, by decide, by decide, by decide⟩
